import Mathlib

/-!
# coreos-cloudinit: `system.Update` and the local-file data source

A shallow embedding of `system/update.go` (`Update.File`, `Update.Units`,
`sortedKeys`) and of `localFile.IsAvailable` from `datasource/file/file.go`,
together with the properties of the merge-and-patch algorithm, of the unit
derivation and of the availability probe.

Conventions of the embedding
* Go strings are Lean `String`s (text that is valid UTF-8); byte-wise prefix
  tests and comparisons agree with the character-wise ones on such text.
* A Go `map[string]string` is an association list with distinct keys.  The order
  in which `range` visits a map is not fixed by the language, so every `range`
  statement takes its visiting order from a `RangeOrder` parameter.
* `(*File, error)` is a record of two optional values; `nil` is `none`.
* The `bufio.Scanner` over the base file is represented by what the loop can
  observe of it: the successive tokens and the value of `Err()` after each.
* The lines of a content are its pieces between newlines (`textLines`); a
  scanner over a content returns them without one terminal carriage return and
  stops at a line of `MaxScanTokenSize` bytes or more.
-/

namespace CloudInit

/-- Go `error` values, identified by their message. -/
abbrev error := String

deriving instance DecidableEq for Except

/-! ## Go standard library -/

namespace strings

/-- Go `strings.HasPrefix(s, p)`: whether `s` begins with `p`. -/
def HasPrefix (s p : String) : Bool := p.data.isPrefixOf s.data

end strings

/-- Go's order `a <= b` on strings: lexicographic. -/
def strLE (a b : String) : Prop := a.data ≤ b.data

/-- Go's order `a < b` on strings. -/
def strLT (a b : String) : Prop := a.data < b.data

instance : DecidableRel strLE := fun a b => inferInstanceAs (Decidable (a.data ≤ b.data))

instance : DecidableRel strLT := fun a b => inferInstanceAs (Decidable (a.data < b.data))

instance : IsTotal String strLE := ⟨fun a b => le_total a.data b.data⟩

instance : IsTrans String strLE := ⟨fun _ _ _ h1 h2 => le_trans (α := List Char) h1 h2⟩

instance : IsAntisymm String strLE := ⟨fun _ _ h1 h2 => String.ext (le_antisymm h1 h2)⟩

namespace sort

/-- Go `sort.Strings`: the strings in increasing order.  The order is total, so
every sorting algorithm returns this list. -/
def Strings (keys : List String) : List String := keys.insertionSort strLE

end sort

namespace path

/-- Go `path.Join` on elements that are already clean: the non-empty elements
separated by slashes. -/
def Join (elem : List String) : String := "/".intercalate (elem.filter (fun e => e ≠ ""))

end path

namespace bufio

/-- What a loop `for scanner.Scan() { ... scanner.Text() ... scanner.Err() ... }`
observes of a `bufio.Scanner` with the default line splitter: `scans` lists, for
every call of `Scan` that returned true, the token `Text()` and the value of
`Err()` right after the call; `err` is the value of `Err()` once `Scan` has
returned false (an I/O error, `ErrTooLong`, or `none` at end of input). -/
structure Scanner where
  scans : List (String × Option error)
  err : Option error
deriving DecidableEq

/-- The scanner over a base file that is read to the end without error;
`lines` are its lines as `Text()` returns them, without the end-of-line
marker. -/
def Scanner.ofLines (lines : List String) : Scanner :=
  { scans := lines.map (fun l => (l, none)), err := none }

end bufio

/-! ## Package `config` -/

namespace config

/-- Modelled from the spec: the declaration of `config.Update`, the option set
with the string fields reboot-strategy, group and server. -/
structure Update where
  RebootStrategy : String
  Group : String
  Server : String
deriving DecidableEq

/-- Modelled from the spec: the `env` tags of `config.Update` as `reflect` shows
them, one pair (tag, value) per field in declaration order; the external key
names are REBOOT_STRATEGY, GROUP and SERVER. -/
def Update.fields (c : Update) : List (String × String) :=
  [("REBOOT_STRATEGY", c.RebootStrategy), ("GROUP", c.Group), ("SERVER", c.Server)]

/-- Modelled from the spec: `config.IsZero`, true when every field of the
option set is empty. -/
def IsZero (c : Update) : Bool :=
  c.RebootStrategy == "" && c.Group == "" && c.Server == ""

/-- Modelled from the spec: the declaration of `config.File`, a file artifact
with destination path, permission string and content. -/
structure File where
  Path : String
  RawFilePermissions : String
  Content : String
deriving DecidableEq

/-- Modelled from the spec: the declaration of `config.Unit`, a service action
with unit name, command and the flags mask and runtime-only. -/
structure Unit where
  Name : String
  Command : String
  Mask : Bool
  Runtime : Bool
deriving DecidableEq

end config

/-! ## Package `system` -/

/-- Constant `locksmithUnit`. -/
def locksmithUnit : String := "locksmithd.service"

/-- Constant `updateEngineUnit`. -/
def updateEngineUnit : String := "update-engine.service"

/-- Type `system.File`, a wrapper of `config.File`. -/
structure File extends config.File
deriving DecidableEq

/-- Type `system.Unit`, a wrapper of `config.Unit`. -/
structure Unit extends config.Unit
deriving DecidableEq

/-- Type `system.Update`: the configuration and the outcome of calling the
`ReadConfig` function (an error, or the scanner over the reader it returned). -/
structure Update where
  Config : config.Update
  ReadConfig : Except error bufio.Scanner

/-- A Go `map[string]string`: an association list with distinct keys. -/
abbrev Subs := List (String × String)

/-- Map assignment `m[k] = v`. -/
def Subs.set (m : Subs) (k v : String) : Subs :=
  m.filter (fun e => e.1 ≠ k) ++ [(k, v)]

/-- Builtin `delete(m, k)`. -/
def Subs.delete (m : Subs) (k : String) : Subs :=
  m.filter (fun e => e.1 ≠ k)

/-- Map read `m[k]`, the empty string when the key is absent. -/
def Subs.get (m : Subs) (k : String) : String :=
  (m.lookup k).getD ""

/-- The order in which the `n`-th `range` statement of a call visits the
entries of a map. -/
abbrev RangeOrder := Nat → Subs → Subs

/-- A visiting order visits every entry of the map exactly once. -/
def RangeOrder.Valid (ord : RangeOrder) : Prop := ∀ n m, (ord n m).Perm m

/-- The visiting order that follows the association list. -/
def RangeOrder.listed : RangeOrder := fun _ m => m

/-- The visiting order that follows the association list backwards. -/
def RangeOrder.reversed : RangeOrder := fun _ m => m.reverse

/-- Function `sortedKeys`: the keys in visiting order, then `sort.Strings`. -/
def sortedKeys (order : Subs → Subs) (m : Subs) : List String :=
  sort.Strings ((order m).map Prod.fst)

/-- Lines 53-63 of `Update.File`: one substitution `env ↦ "env=val"` per
non-empty field. -/
def substitutions (fields : List (String × String)) : Subs :=
  fields.foldl
    (fun subs f => if f.2 = "" then subs else subs.set f.1 (f.1 ++ "=" ++ f.2)) []

/-- The inner `range subs` loop at lines 74-80: the first visited key that
prefixes the line replaces the line and is deleted from the map. -/
def substitute (order : Subs → Subs) (subs : Subs) (line : String) : String × Subs :=
  match (order subs).find? (fun e => strings.HasPrefix line e.1) with
  | some (env, value) => (value, subs.delete env)
  | none => (line, subs)

/-- The scan loop at lines 72-86, started at iteration `i` with the map `subs`
and the accumulated output `out`. -/
def scanLoop (ord : RangeOrder) :
    Nat → List (String × Option error) → Subs → String → Except error (String × Subs)
  | _, [], subs, out => .ok (out, subs)
  | i, (text, e) :: rest, subs, out =>
    let r := substitute (ord i) subs text
    let out := out ++ r.1 ++ "\n"
    match e with
    | some err => .error err
    | none => scanLoop ord (i + 1) rest r.2 out

/-- The loop at lines 88-91: the remaining substitutions in key order. -/
def appendRemaining (order : Subs → Subs) (subs : Subs) (out : String) : String :=
  (sortedKeys order subs).foldl (fun out key => out ++ subs.get key ++ "\n") out

/-- Lines 52-91 of `Update.File` over the reflected fields of the configuration
and the scanner: the content of the generated file, or the error returned from
inside the scan loop. -/
def generate (ord : RangeOrder) (fields : List (String × String)) (sc : bufio.Scanner) :
    Except error String :=
  match scanLoop ord 0 sc.scans (substitutions fields) "" with
  | .error err => .error err
  | .ok (out, subs) => .ok (appendRemaining (ord sc.scans.length) subs out)

/-- The two results of `Update.File`, and how many times it called
`ReadConfig`. -/
structure FileResult where
  file : Option File
  err : Option error
  readConfigCalls : Nat
deriving DecidableEq

/-- Method `Update.File`.  `AssertValid` is `config.AssertValid`, whose rule
set lies outside this package. -/
def Update.File (AssertValid : config.Update → Option error) (ord : RangeOrder)
    (uc : Update) : FileResult :=
  if config.IsZero uc.Config then
    { file := none, err := none, readConfigCalls := 0 }
  else
    match AssertValid uc.Config with
    | some err => { file := none, err := some err, readConfigCalls := 0 }
    | none =>
      match uc.ReadConfig with
      | .error err => { file := none, err := some err, readConfigCalls := 1 }
      | .ok scanner =>
        match generate ord uc.Config.fields scanner with
        | .error err => { file := none, err := some err, readConfigCalls := 1 }
        | .ok out =>
          { file := some
              { Path := path.Join ["etc", "coreos", "update.conf"]
                RawFilePermissions := "0644"
                Content := out }
            err := none
            readConfigCalls := 1 }

/-- Method `Update.Units`. -/
def Update.Units (uc : Update) : List Unit × Option error :=
  let units : List Unit := []
  let units :=
    if uc.Config.RebootStrategy ≠ "" then
      let ls : Unit :=
        { Name := locksmithUnit, Command := "restart", Mask := false, Runtime := true }
      let ls : Unit :=
        if uc.Config.RebootStrategy = "off" then
          { ls with Command := "stop", Mask := true }
        else ls
      units ++ [ls]
    else units
  let units :=
    if uc.Config.Group ≠ "" ∨ uc.Config.Server ≠ "" then
      let ue : Unit :=
        { Name := updateEngineUnit, Command := "restart", Mask := false, Runtime := false }
      units ++ [ue]
    else units
  (units, none)

/-- The lines `ls`, each followed by one newline. -/
def joinLines (ls : List String) : String :=
  ls.foldr (fun l acc => l ++ "\n" ++ acc) ""

/-- A validator that accepts the reboot strategies best-effort, etcd-lock,
reboot and off (and the unset one) and constrains nothing else. -/
def enumValid (c : config.Update) : Option error :=
  if c.RebootStrategy ∈ ["", "best-effort", "etcd-lock", "reboot", "off"] then none
  else some "invalid value for reboot-strategy"

/-- No string of the list is a prefix of another one (so they are distinct). -/
def PrefixFree (keys : List String) : Prop :=
  keys.Pairwise (fun a b => ¬ a.data <+: b.data ∧ ¬ b.data <+: a.data)

/-- The lines written for the base lines by the scan loop when every `range`
follows the association list, and the substitutions that remain. -/
def rewriteLines : Subs → List String → List String × Subs
  | subs, [] => ([], subs)
  | subs, line :: rest =>
    let r := substitute (fun m => m) subs line
    let t := rewriteLines r.2 rest
    (r.1 :: t.1, t.2)

/-- The rendered line `K=value` of the field whose external key is `K`. -/
def rendered (fields : List (String × String)) (K : String) : String :=
  K ++ "=" ++ (fields.lookup K).getD ""

/-- The substitution entry of one field. -/
def fieldEntry (f : String × String) : Option (String × String) :=
  if f.2 = "" then none else some (f.1, f.1 ++ "=" ++ f.2)

/-! ## Raw base files -/

namespace bufio

/-- Go `dropCR`: the data without one terminal carriage return. -/
def dropCR (data : String) : String :=
  if data.data.getLast? = some '\r' then ⟨data.data.dropLast⟩ else data

/-- The tokens that a scanner with the split function `bufio.ScanLines` yields
over `rest`, when `cur` is the part of the current line that was already
consumed: a line ends at a newline, loses one terminal carriage return, and a
last line without newline is a token when it is not empty. -/
def scanLinesFrom : List Char → List Char → List String
  | [], cur => if cur = [] then [] else [dropCR ⟨cur⟩]
  | c :: rest, cur =>
    if c = '\n' then dropCR ⟨cur⟩ :: scanLinesFrom rest [] else scanLinesFrom rest (cur ++ [c])

/-- The tokens of the whole input under the split function `bufio.ScanLines`,
for a scanner that is not stopped by an error. -/
def ScanLines (data : String) : List String := scanLinesFrom data.data []

/-- The raw lines of `rest`, when `cur` is the part of the current line that was
already consumed: a line ends at a newline, and a last line without newline is
a line when it is not empty. -/
def splitLinesFrom : List Char → List Char → List String
  | [], cur => if cur = [] then [] else [⟨cur⟩]
  | c :: rest, cur =>
    if c = '\n' then ⟨cur⟩ :: splitLinesFrom rest [] else splitLinesFrom rest (cur ++ [c])

/-- Go `bufio.MaxScanTokenSize`, the size of the largest buffer of a scanner. -/
def MaxScanTokenSize : Nat := 64 * 1024

/-- Go `bufio.ErrTooLong`. -/
def ErrTooLong : error := "bufio.Scanner: token too long"

/-- Whether the scanner can hold the raw line in its buffer: its length in
bytes, a terminal carriage return included, is below `MaxScanTokenSize`. -/
def fits (line : String) : Bool := decide (line.utf8ByteSize < MaxScanTokenSize)

end bufio

/-- The lines of a text: the pieces that end at each newline, without the
newline, and the piece after the last newline when it is not empty. -/
def textLines (data : String) : List String := bufio.splitLinesFrom data.data []

namespace bufio

/-- The scanner over the base file with content `data` when every `Read`
succeeds: it yields the raw lines, each without one terminal carriage return,
up to the first line that does not fit in the buffer, where `Scan` returns
false and `Err()` is `ErrTooLong`. -/
def Scanner.ofContent (data : String) : Scanner :=
  { scans := ((textLines data).takeWhile fits).map (fun l => (dropCR l, none))
    err := if (textLines data).all fits then none else some ErrTooLong }

end bufio

/-! ## Package `datasource/file` -/

namespace os

/-- The error of a failed `os.Stat`, by kind. -/
inductive Errno where
  | ENOENT
  | EACCES
  | ENOTDIR
  | EIO
deriving DecidableEq

/-- Go `os.IsNotExist`: whether the error reports that the file does not exist;
`none` is the nil error. -/
def IsNotExist (err : Option Errno) : Bool :=
  match err with
  | some Errno.ENOENT => true
  | _ => false

end os

/-- Type `localFile`. -/
structure localFile where
  path : String
deriving DecidableEq

/-- Method `localFile.IsAvailable`; `stat` gives the error that `os.Stat`
returns for a path (`none` when it succeeds). -/
def localFile.IsAvailable (stat : String → Option os.Errno) (f : localFile) : Bool :=
  !os.IsNotExist (stat f.path)

/-! ## Auxiliary facts -/

theorem hasPrefix_iff (s p : String) : strings.HasPrefix s p = true ↔ p.data <+: s.data := by
  unfold strings.HasPrefix
  exact List.isPrefixOf_iff_prefix

theorem joinLines_cons (l : String) (ls : List String) :
    joinLines (l :: ls) = l ++ "\n" ++ joinLines ls := rfl

theorem joinLines_append (xs ys : List String) :
    joinLines (xs ++ ys) = joinLines xs ++ joinLines ys := by
  induction xs with
  | nil => simp [joinLines]
  | cons x xs ih => simp [joinLines_cons, ih, String.append_assoc]

theorem find_perm_unique {α : Type} (p : α → Bool) {l₁ l₂ : List α} (h : l₁.Perm l₂)
    (huniq : ∀ a ∈ l₂, ∀ b ∈ l₂, p a = true → p b = true → a = b) :
    l₁.find? p = l₂.find? p := by
  cases h2 : l₂.find? p with
  | none =>
    rw [List.find?_eq_none] at h2 ⊢
    intro x hx
    exact h2 x (h.mem_iff.1 hx)
  | some a =>
    have ha : a ∈ l₂ := List.mem_of_find?_eq_some h2
    have hpa : p a = true := List.find?_some h2
    cases h1 : l₁.find? p with
    | none =>
      rw [List.find?_eq_none] at h1
      exact absurd hpa (h1 a (h.mem_iff.2 ha))
    | some b =>
      have hb : b ∈ l₂ := h.mem_iff.1 (List.mem_of_find?_eq_some h1)
      have hpb : p b = true := List.find?_some h1
      rw [huniq b hb a ha hpb hpa]

theorem prefixFree_unique {m : Subs} (hpf : PrefixFree (m.map Prod.fst)) (line : String) :
    ∀ a ∈ m, ∀ b ∈ m, strings.HasPrefix line a.1 = true → strings.HasPrefix line b.1 = true →
      a = b := by
  intro a ha b hb hpa hpb
  by_contra hne
  have hpw : m.Pairwise (fun a b => ¬ a.1.data <+: b.1.data ∧ ¬ b.1.data <+: a.1.data) :=
    List.pairwise_map.1 hpf
  have hsymm : Symmetric (fun a b : String × String =>
      ¬ a.1.data <+: b.1.data ∧ ¬ b.1.data <+: a.1.data) := fun _ _ h => ⟨h.2, h.1⟩
  have := hpw.forall hsymm ha hb hne
  rcases List.prefix_or_prefix_of_prefix ((hasPrefix_iff _ _).1 hpa) ((hasPrefix_iff _ _).1 hpb)
    with h | h
  · exact this.1 h
  · exact this.2 h

theorem prefixFree_delete {m : Subs} (hpf : PrefixFree (m.map Prod.fst)) (k : String) :
    PrefixFree ((m.delete k).map Prod.fst) := by
  unfold PrefixFree at *
  rw [List.pairwise_map] at *
  exact hpf.sublist (List.filter_sublist m)

theorem substitute_order {order : Subs → Subs} {m : Subs} (hperm : (order m).Perm m)
    (hpf : PrefixFree (m.map Prod.fst)) (line : String) :
    substitute order m line = substitute (fun m => m) m line := by
  unfold substitute
  rw [find_perm_unique _ hperm (prefixFree_unique hpf line)]

theorem substitute_prefixFree {m : Subs} (hpf : PrefixFree (m.map Prod.fst)) (line : String) :
    PrefixFree (((substitute (fun m => m) m line).2).map Prod.fst) := by
  unfold substitute
  split
  · exact prefixFree_delete hpf _
  · exact hpf

theorem sortedKeys_order {order : Subs → Subs} {m : Subs} (hperm : (order m).Perm m) :
    sortedKeys order m = sort.Strings (m.map Prod.fst) := by
  unfold sortedKeys sort.Strings
  apply List.eq_of_perm_of_sorted (r := strLE)
  · exact ((List.perm_insertionSort _ _).trans (hperm.map _)).trans
      (List.perm_insertionSort _ _).symm
  · exact List.sorted_insertionSort _ _
  · exact List.sorted_insertionSort _ _

theorem foldl_append_lines (get : String → String) (keys : List String) (out : String) :
    keys.foldl (fun out key => out ++ get key ++ "\n") out
      = out ++ joinLines (keys.map get) := by
  induction keys generalizing out with
  | nil => simp [joinLines]
  | cons k ks ih =>
    simp only [List.foldl_cons, List.map_cons, joinLines_cons]
    rw [ih]
    simp [String.append_assoc]

theorem scanLoop_ofLines {ord : RangeOrder} (hord : ord.Valid) (lines : List String) :
    ∀ (i : Nat) (subs : Subs) (out : String), PrefixFree (subs.map Prod.fst) →
      scanLoop ord i (lines.map (fun l => (l, none))) subs out
        = .ok (out ++ joinLines (rewriteLines subs lines).1, (rewriteLines subs lines).2) := by
  induction lines with
  | nil => intro i subs out _; simp [scanLoop, rewriteLines, joinLines]
  | cons l ls ih =>
    intro i subs out hpf
    simp only [List.map_cons, scanLoop, rewriteLines]
    rw [substitute_order (hord i subs) hpf l]
    rw [ih (i + 1) _ _ (substitute_prefixFree hpf l)]
    simp [joinLines_cons, String.append_assoc]

theorem scanLoop_order {ord₁ ord₂ : RangeOrder} (h₁ : ord₁.Valid) (h₂ : ord₂.Valid)
    (scans : List (String × Option error)) :
    ∀ (i : Nat) (subs : Subs) (out : String), PrefixFree (subs.map Prod.fst) →
      scanLoop ord₁ i scans subs out = scanLoop ord₂ i scans subs out := by
  induction scans with
  | nil => intro i subs out _; simp [scanLoop]
  | cons s rest ih =>
    intro i subs out hpf
    obtain ⟨text, e⟩ := s
    simp only [scanLoop]
    rw [substitute_order (h₁ i subs) hpf text, substitute_order (h₂ i subs) hpf text]
    cases e with
    | some err => rfl
    | none => exact ih (i + 1) _ _ (substitute_prefixFree hpf text)

theorem appendRemaining_order {order : Subs → Subs} {m : Subs} (hperm : (order m).Perm m)
    (out : String) :
    appendRemaining order m out
      = out ++ joinLines ((sort.Strings (m.map Prod.fst)).map m.get) := by
  unfold appendRemaining
  rw [sortedKeys_order hperm, foldl_append_lines]

theorem substitutions_foldl (fs : List (String × String)) :
    ∀ acc : Subs, (fs.map Prod.fst).Nodup → (∀ e ∈ acc, e.1 ∉ fs.map Prod.fst) →
      fs.foldl (fun subs f => if f.2 = "" then subs else subs.set f.1 (f.1 ++ "=" ++ f.2)) acc
        = acc ++ fs.filterMap fieldEntry := by
  induction fs with
  | nil => intro acc _ _; simp
  | cons f fs ih =>
    intro acc hnd hacc
    have hnd' : (fs.map Prod.fst).Nodup := (List.nodup_cons.1 (by simpa using hnd)).2
    have hf : f.1 ∉ fs.map Prod.fst := (List.nodup_cons.1 (by simpa using hnd)).1
    simp only [List.foldl_cons]
    by_cases hv : f.2 = ""
    · rw [if_pos hv, ih acc hnd' (fun e he h => hacc e he (by simp at h ⊢; exact Or.inr h))]
      simp [List.filterMap_cons, fieldEntry, hv]
    · rw [if_neg hv]
      have hset : acc.set f.1 (f.1 ++ "=" ++ f.2) = acc ++ [(f.1, f.1 ++ "=" ++ f.2)] := by
        unfold Subs.set
        congr 1
        rw [List.filter_eq_self]
        intro e he
        have := hacc e he
        simp at this ⊢
        exact this.1
      rw [hset, ih _ hnd']
      · simp [List.filterMap_cons, fieldEntry, hv]
      · intro e he
        rcases List.mem_append.1 he with h | h
        · intro hmem
          exact hacc e h (by simp at hmem ⊢; exact Or.inr hmem)
        · simp at h
          subst h
          exact hf

theorem substitutions_eq (fs : List (String × String)) (hnd : (fs.map Prod.fst).Nodup) :
    substitutions fs = fs.filterMap fieldEntry := by
  unfold substitutions
  rw [substitutions_foldl fs [] hnd (by simp)]
  simp

theorem prefixFree_nodup {keys : List String} (h : PrefixFree keys) : keys.Nodup := by
  unfold PrefixFree at h
  refine List.Pairwise.imp ?_ h
  intro a b hab heq
  exact hab.1 (by rw [heq])

theorem substitutions_keys_sublist (fs : List (String × String)) :
    ((fs.filterMap fieldEntry).map Prod.fst).Sublist (fs.map Prod.fst) := by
  induction fs with
  | nil => simp
  | cons f fs ih =>
    by_cases hv : f.2 = ""
    · simp only [List.filterMap_cons, fieldEntry, hv, if_true, List.map_cons]
      exact ih.trans (List.sublist_cons_self _ _)
    · simp only [List.filterMap_cons, fieldEntry, hv, if_false, List.map_cons]
      exact ih.cons₂ _

theorem substitutions_prefixFree {fs : List (String × String)}
    (hpf : PrefixFree (fs.map Prod.fst)) : PrefixFree ((substitutions fs).map Prod.fst) := by
  rw [substitutions_eq fs (prefixFree_nodup hpf)]
  exact List.Pairwise.sublist (substitutions_keys_sublist fs) hpf

theorem mem_substitutions {fs : List (String × String)} (hpf : PrefixFree (fs.map Prod.fst))
    (e : String × String) :
    e ∈ substitutions fs ↔ ∃ v, (e.1, v) ∈ fs ∧ v ≠ "" ∧ e.2 = e.1 ++ "=" ++ v := by
  rw [substitutions_eq fs (prefixFree_nodup hpf), List.mem_filterMap]
  constructor
  · rintro ⟨f, hf, hfe⟩
    unfold fieldEntry at hfe
    split at hfe
    · cases hfe
    · rename_i hv
      cases hfe
      exact ⟨f.2, hf, hv, rfl⟩
  · rintro ⟨v, hv, hne, hr⟩
    refine ⟨(e.1, v), hv, ?_⟩
    simp [fieldEntry, hne]
    exact Prod.ext rfl hr.symm

theorem fields_prefixFree (c : config.Update) : PrefixFree (c.fields.map Prod.fst) := by
  unfold PrefixFree config.Update.fields
  simp only [List.map_cons, List.map_nil]
  decide

theorem generate_ofLines {ord : RangeOrder} (hord : ord.Valid) {fs : List (String × String)}
    (hpf : PrefixFree (fs.map Prod.fst)) (lines : List String) :
    generate ord fs (bufio.Scanner.ofLines lines)
      = .ok (joinLines ((rewriteLines (substitutions fs) lines).1 ++
          (sort.Strings ((rewriteLines (substitutions fs) lines).2.map Prod.fst)).map
            (rewriteLines (substitutions fs) lines).2.get)) := by
  unfold generate bufio.Scanner.ofLines
  simp only
  rw [scanLoop_ofLines hord lines 0 _ "" (substitutions_prefixFree hpf)]
  simp only
  rw [appendRemaining_order (hord _ _), joinLines_append]
  simp

theorem generate_order {ord₁ ord₂ : RangeOrder} (h₁ : ord₁.Valid) (h₂ : ord₂.Valid)
    {fs : List (String × String)} (hpf : PrefixFree (fs.map Prod.fst)) (sc : bufio.Scanner) :
    generate ord₁ fs sc = generate ord₂ fs sc := by
  unfold generate
  rw [scanLoop_order h₁ h₂ sc.scans 0 _ "" (substitutions_prefixFree hpf)]
  cases scanLoop ord₂ 0 sc.scans (substitutions fs) "" with
  | error err => rfl
  | ok r =>
    obtain ⟨out, subs⟩ := r
    simp only
    rw [appendRemaining_order (h₁ _ _), appendRemaining_order (h₂ _ _)]

/-! ### The inner loop -/

theorem substitute_none {m : Subs} {line : String}
    (h : ∀ e ∈ m, strings.HasPrefix line e.1 = false) :
    substitute (fun m => m) m line = (line, m) := by
  unfold substitute
  have : m.find? (fun e => strings.HasPrefix line e.1) = none := by
    rw [List.find?_eq_none]
    intro x hx
    simp [h x hx]
  simp only [this]

theorem substitute_some {m : Subs} (hpf : PrefixFree (m.map Prod.fst)) {line : String}
    {e : String × String} (he : e ∈ m) (hp : strings.HasPrefix line e.1 = true) :
    substitute (fun m => m) m line = (e.2, m.delete e.1) := by
  unfold substitute
  cases hf : m.find? (fun e => strings.HasPrefix line e.1) with
  | none =>
    rw [List.find?_eq_none] at hf
    exact absurd hp (by simpa using hf e he)
  | some a =>
    have ha : a ∈ m := List.mem_of_find?_eq_some hf
    have hpa : strings.HasPrefix line a.1 = true :=
      List.find?_some (p := fun e : String × String => strings.HasPrefix line e.1) hf
    have : a = e := prefixFree_unique hpf line a ha e he hpa hp
    subst this
    rfl

theorem substitute_cases (m : Subs) (hpf : PrefixFree (m.map Prod.fst)) (line : String) :
    ((∀ e ∈ m, strings.HasPrefix line e.1 = false) ∧ substitute (fun m => m) m line = (line, m))
    ∨ ∃ e ∈ m, strings.HasPrefix line e.1 = true ∧
        substitute (fun m => m) m line = (e.2, m.delete e.1) := by
  by_cases h : ∃ e ∈ m, strings.HasPrefix line e.1 = true
  · obtain ⟨e, he, hp⟩ := h
    exact Or.inr ⟨e, he, hp, substitute_some hpf he hp⟩
  · have h0 : ∀ e ∈ m, strings.HasPrefix line e.1 = false := by
      intro e he
      cases hq : strings.HasPrefix line e.1 with
      | false => rfl
      | true => exact absurd ⟨e, he, hq⟩ h
    exact Or.inl ⟨h0, substitute_none h0⟩

theorem mem_delete {m : Subs} {k : String} {e : String × String} :
    e ∈ m.delete k ↔ e ∈ m ∧ e.1 ≠ k := by
  unfold Subs.delete
  simp [List.mem_filter]

/-! ### The lines written by the scan loop -/

theorem rewriteLines_cons (m : Subs) (l : String) (ls : List String) :
    rewriteLines m (l :: ls)
      = ((substitute (fun m => m) m l).1 :: (rewriteLines (substitute (fun m => m) m l).2 ls).1,
          (rewriteLines (substitute (fun m => m) m l).2 ls).2) := rfl

theorem rewriteLines_length (lines : List String) :
    ∀ m : Subs, (rewriteLines m lines).1.length = lines.length := by
  induction lines with
  | nil => intro m; rfl
  | cons l ls ih => intro m; simp [rewriteLines_cons, ih]

/-- Every written line is the base line itself, or the value of a substitution
whose key prefixes the base line and prefixes no earlier base line. -/
theorem rewriteLines_spec (lines : List String) :
    ∀ (m : Subs), PrefixFree (m.map Prod.fst) → ∀ (j : Nat) (l : String), lines[j]? = some l →
      (rewriteLines m lines).1[j]? = some l ∨
      ∃ e ∈ m, strings.HasPrefix l e.1 = true ∧ (rewriteLines m lines).1[j]? = some e.2 ∧
        ∀ j₀ < j, ∀ l₀, lines[j₀]? = some l₀ → strings.HasPrefix l₀ e.1 = false := by
  induction lines with
  | nil => intro m _ j l h; simp at h
  | cons l0 ls ih =>
    intro m hpf j l hj
    rw [rewriteLines_cons]
    cases j with
    | zero =>
      simp only [List.getElem?_cons_zero, Option.some.injEq] at hj
      subst hj
      rcases substitute_cases m hpf l0 with ⟨_, hs⟩ | ⟨e, he, hp, hs⟩
      · left; simp [hs]
      · right
        exact ⟨e, he, hp, by simp [hs], fun j₀ hj₀ => absurd hj₀ (Nat.not_lt_zero _)⟩
    | succ j =>
      simp only [List.getElem?_cons_succ] at hj ⊢
      have hpf2 := substitute_prefixFree hpf l0
      rcases ih _ hpf2 j l hj with h | ⟨e, he, hp, hout, hfirst⟩
      · exact Or.inl h
      · right
        rcases substitute_cases m hpf l0 with ⟨hno, hs⟩ | ⟨e0, he0, hp0, hs⟩
        · rw [hs] at he
          refine ⟨e, he, hp, hout, ?_⟩
          intro j₀ hj₀ l₀ hl₀
          cases j₀ with
          | zero =>
            simp only [List.getElem?_cons_zero, Option.some.injEq] at hl₀
            subst hl₀
            exact hno e he
          | succ j₀ =>
            simp only [List.getElem?_cons_succ] at hl₀
            exact hfirst j₀ (Nat.lt_of_succ_lt_succ hj₀) l₀ hl₀
        · rw [hs] at he
          obtain ⟨hem, hne⟩ := mem_delete.1 he
          refine ⟨e, hem, hp, hout, ?_⟩
          intro j₀ hj₀ l₀ hl₀
          cases j₀ with
          | zero =>
            simp only [List.getElem?_cons_zero, Option.some.injEq] at hl₀
            subst hl₀
            cases hq : strings.HasPrefix l0 e.1 with
            | false => rfl
            | true =>
              have := prefixFree_unique hpf l0 e hem e0 he0 hq hp0
              exact absurd (by rw [this]) hne
          | succ j₀ =>
            simp only [List.getElem?_cons_succ] at hl₀
            exact hfirst j₀ (Nat.lt_of_succ_lt_succ hj₀) l₀ hl₀

/-- The first base line prefixed by the key of a substitution is replaced by
the value of that substitution. -/
theorem rewriteLines_first (lines : List String) :
    ∀ (m : Subs), PrefixFree (m.map Prod.fst) → ∀ e ∈ m, ∀ (i : Nat) (l : String),
      lines[i]? = some l → strings.HasPrefix l e.1 = true →
      (∀ j < i, ∀ l₀, lines[j]? = some l₀ → strings.HasPrefix l₀ e.1 = false) →
      (rewriteLines m lines).1[i]? = some e.2 := by
  induction lines with
  | nil => intro m _ e _ i l h; simp at h
  | cons l0 ls ih =>
    intro m hpf e he i l hi hp hfirst
    rw [rewriteLines_cons]
    cases i with
    | zero =>
      simp only [List.getElem?_cons_zero, Option.some.injEq] at hi
      subst hi
      simp [substitute_some hpf he hp]
    | succ i =>
      simp only [List.getElem?_cons_succ] at hi ⊢
      have h0 : strings.HasPrefix l0 e.1 = false := hfirst 0 (Nat.succ_pos _) l0 (by simp)
      have hrest : ∀ j < i, ∀ l₀, ls[j]? = some l₀ → strings.HasPrefix l₀ e.1 = false :=
        fun j hj l₀ hl₀ => hfirst (j + 1) (Nat.succ_lt_succ hj) l₀ (by simpa using hl₀)
      have hpf2 := substitute_prefixFree hpf l0
      refine ih _ hpf2 e ?_ i l hi hp hrest
      rcases substitute_cases m hpf l0 with ⟨_, hs⟩ | ⟨e0, _, hp0, hs⟩
      · rw [hs]; exact he
      · rw [hs]
        refine mem_delete.2 ⟨he, ?_⟩
        intro heq
        rw [heq, hp0] at h0
        cases h0

/-- The substitutions that remain after the scan are those whose key prefixes
no base line. -/
theorem rewriteLines_remaining (lines : List String) :
    ∀ (m : Subs), PrefixFree (m.map Prod.fst) →
      (rewriteLines m lines).2
        = m.filter (fun e => lines.all (fun l => !strings.HasPrefix l e.1)) := by
  induction lines with
  | nil => intro m _; simp [rewriteLines]
  | cons l0 ls ih =>
    intro m hpf
    rw [rewriteLines_cons]
    simp only
    rw [ih _ (substitute_prefixFree hpf l0)]
    rcases substitute_cases m hpf l0 with ⟨hno, hs⟩ | ⟨e0, he0, hp0, hs⟩
    · rw [hs]
      apply List.filter_congr
      intro e he
      simp [hno e he]
    · rw [hs]
      unfold Subs.delete
      rw [List.filter_filter]
      apply List.filter_congr
      intro e he
      have : (decide (e.1 ≠ e0.1)) = !strings.HasPrefix l0 e.1 := by
        cases hq : strings.HasPrefix l0 e.1 with
        | false =>
          simp only [Bool.not_false, decide_eq_true_eq]
          intro heq
          rw [heq, hp0] at hq
          cases hq
        | true =>
          simp only [Bool.not_true, decide_eq_false_iff_not, not_not]
          rw [prefixFree_unique hpf l0 e he e0 he0 hq hp0]
      simp only [List.all_cons]
      rw [← this, Bool.and_comm]

/-! ### `Update.File` on a base file that is read without error -/

/-- The lines that `Update.File` writes for the base lines `lines`. -/
theorem file_ofLines (AssertValid : config.Update → Option error) {ord : RangeOrder}
    (hord : ord.Valid) (uc : Update) (lines : List String)
    (hset : config.IsZero uc.Config = false) (hvalid : AssertValid uc.Config = none)
    (hread : uc.ReadConfig = .ok (bufio.Scanner.ofLines lines)) :
    uc.File AssertValid ord =
      { file := some
          { Path := "etc/coreos/update.conf"
            RawFilePermissions := "0644"
            Content := joinLines ((rewriteLines (substitutions uc.Config.fields) lines).1 ++
              (sort.Strings ((rewriteLines (substitutions uc.Config.fields) lines).2.map
                Prod.fst)).map (rewriteLines (substitutions uc.Config.fields) lines).2.get) }
        err := none
        readConfigCalls := 1 } := by
  unfold Update.File
  rw [hset, hvalid, hread]
  simp only [Bool.false_eq_true, if_false]
  rw [generate_ofLines hord (fields_prefixFree uc.Config) lines]
  rfl

/-! ### The substitutions that remain -/

theorem lookup_of_mem {l : List (String × String)} (hnd : (l.map Prod.fst).Nodup)
    {k v : String} (h : (k, v) ∈ l) : l.lookup k = some v := by
  induction l with
  | nil => cases h
  | cons a l ih =>
    obtain ⟨ak, av⟩ := a
    simp only [List.map_cons, List.nodup_cons] at hnd
    rcases List.mem_cons.1 h with heq | hmem
    · cases heq
      simp [List.lookup]
    · have hne : k ≠ ak := by
        intro heq
        subst heq
        exact hnd.1 (List.mem_map_of_mem Prod.fst hmem)
      have hbeq : (k == ak) = false := by simpa using hne
      simp only [List.lookup, hbeq]
      exact ih hnd.2 hmem

theorem get_of_mem {m : Subs} (hnd : (m.map Prod.fst).Nodup) {e : String × String}
    (h : e ∈ m) : m.get e.1 = e.2 := by
  unfold Subs.get
  rw [lookup_of_mem hnd (k := e.1) (v := e.2) h]
  rfl

theorem map_get_keys {m : Subs} (hnd : (m.map Prod.fst).Nodup) :
    (m.map Prod.fst).map m.get = m.map Prod.snd := by
  rw [List.map_map]
  apply List.map_congr_left
  intro e he
  exact get_of_mem hnd he

theorem mem_remaining {m : Subs} (hpf : PrefixFree (m.map Prod.fst)) (lines : List String)
    (e : String × String) :
    e ∈ (rewriteLines m lines).2 ↔ e ∈ m ∧ ∀ l ∈ lines, strings.HasPrefix l e.1 = false := by
  rw [rewriteLines_remaining lines m hpf, List.mem_filter]
  simp

theorem remaining_sublist {m : Subs} (hpf : PrefixFree (m.map Prod.fst)) (lines : List String) :
    ((rewriteLines m lines).2).Sublist m := by
  rw [rewriteLines_remaining lines m hpf]
  exact List.filter_sublist m

theorem remaining_nodup {m : Subs} (hpf : PrefixFree (m.map Prod.fst)) (lines : List String) :
    (((rewriteLines m lines).2).map Prod.fst).Nodup :=
  ((remaining_sublist hpf lines).map Prod.fst).nodup (prefixFree_nodup hpf)

theorem substitutions_selfPrefixed {fs : List (String × String)}
    (hpf : PrefixFree (fs.map Prod.fst)) {e : String × String} (he : e ∈ substitutions fs) :
    strings.HasPrefix e.2 e.1 = true := by
  obtain ⟨v, _, _, hr⟩ := (mem_substitutions hpf e).1 he
  rw [hasPrefix_iff, hr]
  simp only [String.data_append, List.append_assoc]
  exact List.prefix_append _ _

theorem substitutions_value_inj {fs : List (String × String)}
    (hpf : PrefixFree (fs.map Prod.fst)) {a b : String × String}
    (ha : a ∈ substitutions fs) (hb : b ∈ substitutions fs) (h : a.2 = b.2) : a = b := by
  have h1 := substitutions_selfPrefixed hpf ha
  have h2 := substitutions_selfPrefixed hpf hb
  rw [← h] at h2
  exact prefixFree_unique (substitutions_prefixFree hpf) a.2 a ha b hb h1 h2

theorem substitutions_get {fs : List (String × String)} (hpf : PrefixFree (fs.map Prod.fst))
    {e : String × String} (he : e ∈ substitutions fs) : e.2 = rendered fs e.1 := by
  obtain ⟨v, hv, _, hr⟩ := (mem_substitutions hpf e).1 he
  unfold rendered
  rw [lookup_of_mem (prefixFree_nodup hpf) hv, hr]
  rfl

theorem sortedStrings_strict {keys : List String} (hnd : keys.Nodup) :
    (sort.Strings keys).Sorted strLT := by
  have hs : (sort.Strings keys).Sorted strLE := List.sorted_insertionSort _ _
  have hn : (sort.Strings keys).Nodup := (List.perm_insertionSort _ _).nodup_iff.2 hnd
  unfold List.Sorted at *
  refine List.Pairwise.imp ?_ (List.Pairwise.and hs hn)
  intro a b hab
  exact lt_of_le_of_ne hab.1 (fun h => hab.2 (String.ext h))

theorem mem_sortedStrings {keys : List String} {k : String} :
    k ∈ sort.Strings keys ↔ k ∈ keys :=
  (List.perm_insertionSort _ _).mem_iff

theorem getElem?_append_of_some {α : Type} {xs ys : List α} {i : Nat} {a : α}
    (h : xs[i]? = some a) : (xs ++ ys)[i]? = some a := by
  have hi : i < xs.length := by
    by_contra hge
    rw [List.getElem?_eq_none (Nat.le_of_not_lt hge)] at h
    cases h
  rw [List.getElem?_append_left hi, h]

theorem mem_take_of_getElem? {α : Type} {xs : List α} {i j : Nat} {a : α} (hj : j < i)
    (h : xs[j]? = some a) : a ∈ xs.take i := by
  have : (xs.take i)[j]? = some a := by
    rw [List.getElem?_take_of_lt hj, h]
  exact List.getElem?_mem this

theorem appended_perm {m : Subs} (hpf : PrefixFree (m.map Prod.fst)) (lines : List String) :
    ((sort.Strings ((rewriteLines m lines).2.map Prod.fst)).map (rewriteLines m lines).2.get).Perm
      ((rewriteLines m lines).2.map Prod.snd) := by
  rw [← map_get_keys (remaining_nodup hpf lines)]
  exact (List.perm_insertionSort _ _).map _

/-! ## The claims -/

/-- C2, counterexample.  With group `b` and server `c` the base file
`GROUP=a`, `SERVER=GROUP` becomes `GROUP=b`, `SERVER=c`: the second line
contains the key GROUP as a substring (not as a prefix) and is altered all the
same, because the key SERVER prefixes it. -/
theorem file_alters_line_containing_key :
    Update.File enumValid RangeOrder.listed
        { Config := { RebootStrategy := "", Group := "b", Server := "c" }
          ReadConfig := .ok (bufio.Scanner.ofLines ["GROUP=a", "SERVER=GROUP"]) }
      = { file := some
            { Path := "etc/coreos/update.conf"
              RawFilePermissions := "0644"
              Content := joinLines ["GROUP=b", "SERVER=c"] }
          err := none
          readConfigCalls := 1 } ∧
    "GROUP".data <:+: "SERVER=GROUP".data ∧ "SERVER=c" ≠ "SERVER=GROUP" := by
  decide

/-- C2 (exactly-one-rewrite), amended.  When key `K` is set to `v` and line `i`
is the first base line prefixed by `K`, the content consists of the lines
written for the base lines, one per base line, followed by the appended lines;
written line `i` is `K=v`, `K=v` is not appended, and every other base line is
written unchanged, also when it contains `K`, unless another configured key
prefixes it, in which case it is written unchanged or replaced by the rendered
line of that other key.  The scenario of the specification: the base file
`A=1`, `B=2`, `# comment` with `A` set to `9` gives `A=9`, `B=2`, `# comment`. -/
theorem file_rewrites_first_prefixed_line (AssertValid : config.Update → Option error)
    (ord : RangeOrder) (hord : ord.Valid) (uc : Update) (lines : List String)
    (hset : config.IsZero uc.Config = false) (hvalid : AssertValid uc.Config = none)
    (hread : uc.ReadConfig = .ok (bufio.Scanner.ofLines lines))
    (K v : String) (hK : (K, v) ∈ uc.Config.fields) (hv : v ≠ "")
    (i : Nat) (line : String) (hline : lines[i]? = some line)
    (hp : strings.HasPrefix line K = true)
    (hfirst : ∀ l ∈ lines.take i, strings.HasPrefix l K = false) :
    (∃ (f : File) (derived appended : List String),
      uc.File AssertValid ord = { file := some f, err := none, readConfigCalls := 1 } ∧
      f.Content = joinLines (derived ++ appended) ∧ derived.length = lines.length ∧
      derived[i]? = some (K ++ "=" ++ v) ∧ (K ++ "=" ++ v) ∉ appended ∧
      ∀ (j : Nat) (l : String), j ≠ i → lines[j]? = some l →
        derived[j]? = some l ∨
        ∃ g ∈ uc.Config.fields, g.1 ≠ K ∧ g.2 ≠ "" ∧ strings.HasPrefix l g.1 = true ∧
          derived[j]? = some (g.1 ++ "=" ++ g.2)) ∧
    (∀ o : RangeOrder, o.Valid →
      generate o [("A", "9")] (bufio.Scanner.ofLines ["A=1", "B=2", "# comment"])
        = .ok (joinLines ["A=9", "B=2", "# comment"])) := by
  have hfs := fields_prefixFree uc.Config
  have hpf := substitutions_prefixFree hfs
  have hmem : (K, K ++ "=" ++ v) ∈ substitutions uc.Config.fields :=
    (mem_substitutions hfs _).2 ⟨v, hK, hv, rfl⟩
  have hfirst2 : ∀ j < i, ∀ l₀, lines[j]? = some l₀ → strings.HasPrefix l₀ K = false :=
    fun j hj l₀ hl₀ => hfirst l₀ (mem_take_of_getElem? hj hl₀)
  constructor
  · rw [file_ofLines AssertValid hord uc lines hset hvalid hread]
    refine ⟨_, _, _, rfl, rfl, rewriteLines_length lines _,
      rewriteLines_first lines _ hpf _ hmem i line hline hp hfirst2, ?_, ?_⟩
    · intro happ
      obtain ⟨e, he, heq⟩ := List.mem_map.1 ((appended_perm hpf lines).mem_iff.1 happ)
      obtain ⟨hes, hno⟩ := (mem_remaining hpf lines e).1 he
      have : e = (K, K ++ "=" ++ v) := substitutions_value_inj hfs hes hmem heq
      rw [this] at hno
      have := hno line (List.getElem?_mem hline)
      rw [hp] at this
      cases this
    · intro j l hji hl
      rcases rewriteLines_spec lines _ hpf j l hl with h | ⟨e, he, hpe, hout, hfj⟩
      · exact Or.inl h
      · right
        obtain ⟨w, hw, hwne, hr⟩ := (mem_substitutions hfs e).1 he
        refine ⟨(e.1, w), hw, ?_, hwne, hpe, ?_⟩
        · intro heq
          simp only at heq
          rcases Nat.lt_or_gt_of_ne hji with hlt | hgt
          · have := hfirst2 j hlt l hl
            rw [← heq, hpe] at this
            cases this
          · have := hfj i hgt line hline
            rw [heq, hp] at this
            cases this
        · rw [← hr]
          exact hout
  · intro o ho
    rw [generate_ofLines ho (by unfold PrefixFree; simp) _]
    decide

/-- Witness of C2: group `b` and server `c` over the base file `# GROUP`,
`GROUP=a`, `SERVER=GROUP`, where line 1 is the first line prefixed by GROUP. -/
theorem file_rewrites_first_prefixed_line_witness :
    (∃ (f : File) (derived appended : List String),
      Update.File enumValid RangeOrder.listed
          { Config := { RebootStrategy := "", Group := "b", Server := "c" }
            ReadConfig := .ok (bufio.Scanner.ofLines ["# GROUP", "GROUP=a", "SERVER=GROUP"]) }
        = { file := some f, err := none, readConfigCalls := 1 } ∧
      f.Content = joinLines (derived ++ appended) ∧
      derived.length = ["# GROUP", "GROUP=a", "SERVER=GROUP"].length ∧
      derived[1]? = some ("GROUP" ++ "=" ++ "b") ∧ ("GROUP" ++ "=" ++ "b") ∉ appended ∧
      ∀ (j : Nat) (l : String), j ≠ 1 →
        ["# GROUP", "GROUP=a", "SERVER=GROUP"][j]? = some l →
        derived[j]? = some l ∨
        ∃ g ∈ config.Update.fields { RebootStrategy := "", Group := "b", Server := "c" },
          g.1 ≠ "GROUP" ∧ g.2 ≠ "" ∧ strings.HasPrefix l g.1 = true ∧
          derived[j]? = some (g.1 ++ "=" ++ g.2)) ∧
    (∀ o : RangeOrder, o.Valid →
      generate o [("A", "9")] (bufio.Scanner.ofLines ["A=1", "B=2", "# comment"])
        = .ok (joinLines ["A=9", "B=2", "# comment"])) :=
  file_rewrites_first_prefixed_line enumValid RangeOrder.listed (fun _ _ => List.Perm.refl _)
    { Config := { RebootStrategy := "", Group := "b", Server := "c" }
      ReadConfig := .ok (bufio.Scanner.ofLines ["# GROUP", "GROUP=a", "SERVER=GROUP"]) }
    ["# GROUP", "GROUP=a", "SERVER=GROUP"] (by decide) (by decide) rfl
    "GROUP" "b" (by decide) (by decide) 1 "GROUP=a" rfl (by decide) (by decide)

/-- C4.  The content consists of the lines written for the base lines, one per
base line, followed by the rendered lines `K=value` of a list of keys that is
strictly increasing and holds exactly the configured keys that prefix no base
line.  The scenario of the specification: the base file `B=2` with `A` set to
`9` and `C` set to `3` gives `B=2`, `A=9`, `C=3`. -/
theorem file_appends_unmatched_keys_sorted (AssertValid : config.Update → Option error)
    (ord : RangeOrder) (hord : ord.Valid) (uc : Update) (lines : List String)
    (hset : config.IsZero uc.Config = false) (hvalid : AssertValid uc.Config = none)
    (hread : uc.ReadConfig = .ok (bufio.Scanner.ofLines lines)) :
    (∃ (f : File) (derived keys : List String),
      uc.File AssertValid ord = { file := some f, err := none, readConfigCalls := 1 } ∧
      f.Content = joinLines (derived ++ keys.map (rendered uc.Config.fields)) ∧
      derived.length = lines.length ∧ keys.Sorted strLT ∧
      ∀ K : String, K ∈ keys ↔
        (∃ v, (K, v) ∈ uc.Config.fields ∧ v ≠ "") ∧
          ∀ l ∈ lines, strings.HasPrefix l K = false) ∧
    (∀ o : RangeOrder, o.Valid →
      generate o [("A", "9"), ("C", "3")] (bufio.Scanner.ofLines ["B=2"])
        = .ok (joinLines ["B=2", "A=9", "C=3"])) := by
  have hfs := fields_prefixFree uc.Config
  have hpf := substitutions_prefixFree hfs
  constructor
  · rw [file_ofLines AssertValid hord uc lines hset hvalid hread]
    refine ⟨_, (rewriteLines (substitutions uc.Config.fields) lines).1,
      sort.Strings ((rewriteLines (substitutions uc.Config.fields) lines).2.map Prod.fst),
      rfl, ?_, rewriteLines_length lines _, sortedStrings_strict (remaining_nodup hpf lines), ?_⟩
    · simp only
      congr 2
      apply List.map_congr_left
      intro K hKmem
      obtain ⟨e, he, rfl⟩ := List.mem_map.1 (mem_sortedStrings.1 hKmem)
      rw [get_of_mem (remaining_nodup hpf lines) he]
      exact substitutions_get hfs ((remaining_sublist hpf lines).subset he)
    · intro K
      rw [mem_sortedStrings, List.mem_map]
      constructor
      · rintro ⟨e, he, rfl⟩
        obtain ⟨hes, hno⟩ := (mem_remaining hpf lines e).1 he
        obtain ⟨v, hv, hne, _⟩ := (mem_substitutions hfs e).1 hes
        exact ⟨⟨v, hv, hne⟩, hno⟩
      · rintro ⟨⟨v, hv, hne⟩, hno⟩
        refine ⟨(K, K ++ "=" ++ v), (mem_remaining hpf lines _).2 ⟨?_, hno⟩, rfl⟩
        exact (mem_substitutions hfs _).2 ⟨v, hv, hne, rfl⟩
  · intro o ho
    rw [generate_ofLines ho (by unfold PrefixFree; decide) _]
    decide

/-- Witness of C4: reboot strategy, group and server set over a base file with
only a GROUP line; REBOOT_STRATEGY and SERVER are appended in that order. -/
theorem file_appends_unmatched_keys_sorted_witness :
    (∃ (f : File) (derived keys : List String),
      Update.File enumValid RangeOrder.reversed
          { Config := { RebootStrategy := "off", Group := "beta", Server := "http://u" }
            ReadConfig := .ok (bufio.Scanner.ofLines ["GROUP=alpha"]) }
        = { file := some f, err := none, readConfigCalls := 1 } ∧
      f.Content = joinLines (derived ++ keys.map
        (rendered (config.Update.fields
          { RebootStrategy := "off", Group := "beta", Server := "http://u" }))) ∧
      derived.length = ["GROUP=alpha"].length ∧ keys.Sorted strLT ∧
      ∀ K : String, K ∈ keys ↔
        (∃ v, (K, v) ∈ config.Update.fields
            { RebootStrategy := "off", Group := "beta", Server := "http://u" } ∧ v ≠ "") ∧
          ∀ l ∈ ["GROUP=alpha"], strings.HasPrefix l K = false) ∧
    (∀ o : RangeOrder, o.Valid →
      generate o [("A", "9"), ("C", "3")] (bufio.Scanner.ofLines ["B=2"])
        = .ok (joinLines ["B=2", "A=9", "C=3"])) :=
  file_appends_unmatched_keys_sorted enumValid RangeOrder.reversed
    (fun _ m => List.reverse_perm m)
    { Config := { RebootStrategy := "off", Group := "beta", Server := "http://u" }
      ReadConfig := .ok (bufio.Scanner.ofLines ["GROUP=alpha"]) }
    ["GROUP=alpha"] (by decide) (by decide) rfl

/-- C5 (no-op on empty options).  When all three fields are empty,
`Update.File` returns no artifact and no error and never calls `ReadConfig`,
whatever `ReadConfig` would have returned (a scanner or an error) and whatever
the validator says. -/
theorem file_noop_on_empty_options (AssertValid : config.Update → Option error)
    (ord : RangeOrder) (uc : Update) (hrs : uc.Config.RebootStrategy = "")
    (hg : uc.Config.Group = "") (hs : uc.Config.Server = "") :
    uc.File AssertValid ord = { file := none, err := none, readConfigCalls := 0 } := by
  unfold Update.File config.IsZero
  simp [hrs, hg, hs]

/-- Witness of C5: the empty option set with a `ReadConfig` that fails. -/
theorem file_noop_on_empty_options_witness :
    Update.File enumValid RangeOrder.listed
        { Config := { RebootStrategy := "", Group := "", Server := "" }
          ReadConfig := .error "open /usr/share/coreos/update.conf: no such file" }
      = { file := none, err := none, readConfigCalls := 0 } :=
  file_noop_on_empty_options enumValid RangeOrder.listed
    { Config := { RebootStrategy := "", Group := "", Server := "" }
      ReadConfig := .error "open /usr/share/coreos/update.conf: no such file" } rfl rfl rfl

/-- C6, the code at the failing input.  The base file yields the line `# keep`
and then the read fails, so that `Scan` returns false with `Err()` set: the
loop ends, `Err()` is not consulted again, and `Update.File` returns an
artifact built from the part that was read, with no error. -/
theorem file_swallows_read_error :
    Update.File enumValid RangeOrder.listed
        { Config := { RebootStrategy := "", Group := "stable", Server := "" }
          ReadConfig := .ok { scans := [("# keep", none)], err := some "read error" } }
      = { file := some
            { Path := "etc/coreos/update.conf"
              RawFilePermissions := "0644"
              Content := "# keep\nGROUP=stable\n" }
          err := none
          readConfigCalls := 1 } := by
  decide

/-- C7 (determinism).  The result of `Update.File`, content included, is the
same for any two visiting orders of the substitution map, for every option
set, validator and outcome of reading the base file. -/
theorem file_deterministic (AssertValid : config.Update → Option error) (uc : Update)
    (ord₁ ord₂ : RangeOrder) (h₁ : ord₁.Valid) (h₂ : ord₂.Valid) :
    uc.File AssertValid ord₁ = uc.File AssertValid ord₂ := by
  unfold Update.File
  split
  · rfl
  · split
    · rfl
    · split
      · rfl
      · rw [generate_order h₁ h₂ (fields_prefixFree uc.Config)]

/-- Witness of C7: all three fields set, the map visited forwards in one run
and backwards in the other. -/
theorem file_deterministic_witness :
    Update.File enumValid RangeOrder.listed
        { Config := { RebootStrategy := "reboot", Group := "beta", Server := "http://u" }
          ReadConfig := .ok (bufio.Scanner.ofLines ["SERVER=x", "# c", "GROUP=alpha"]) }
      = Update.File enumValid RangeOrder.reversed
        { Config := { RebootStrategy := "reboot", Group := "beta", Server := "http://u" }
          ReadConfig := .ok (bufio.Scanner.ofLines ["SERVER=x", "# c", "GROUP=alpha"]) } :=
  file_deterministic enumValid
    { Config := { RebootStrategy := "reboot", Group := "beta", Server := "http://u" }
      ReadConfig := .ok (bufio.Scanner.ofLines ["SERVER=x", "# c", "GROUP=alpha"]) }
    RangeOrder.listed RangeOrder.reversed (fun _ _ => List.Perm.refl _)
    (fun _ m => List.reverse_perm m)

/-- C8.  For an option set that is not all-empty and that the validator rejects
with `e`, `Update.File` returns `e` and no artifact, and has not called
`ReadConfig`. -/
theorem file_validation_error_before_read (AssertValid : config.Update → Option error)
    (ord : RangeOrder) (uc : Update) (e : error) (hset : config.IsZero uc.Config = false)
    (hinvalid : AssertValid uc.Config = some e) :
    uc.File AssertValid ord = { file := none, err := some e, readConfigCalls := 0 } := by
  unfold Update.File
  rw [hset, hinvalid]
  rfl

/-- Witness of C8: the reboot strategy `bogus` is rejected before a base file
that is present is read. -/
theorem file_validation_error_before_read_witness :
    Update.File enumValid RangeOrder.listed
        { Config := { RebootStrategy := "bogus", Group := "", Server := "" }
          ReadConfig := .ok (bufio.Scanner.ofLines ["GROUP=alpha"]) }
      = { file := none, err := some "invalid value for reboot-strategy",
          readConfigCalls := 0 } :=
  file_validation_error_before_read enumValid RangeOrder.listed
    { Config := { RebootStrategy := "bogus", Group := "", Server := "" }
      ReadConfig := .ok (bufio.Scanner.ofLines ["GROUP=alpha"]) }
    "invalid value for reboot-strategy" (by decide) (by decide)

/-- C9, counterexample.  The reboot strategy `bogus` lies outside the
enumerated values and is rejected by the validator, yet `Update.Units` returns
the restart action for locksmithd.service. -/
theorem units_acts_on_invalid_options :
    enumValid { RebootStrategy := "bogus", Group := "", Server := "" }
      = some "invalid value for reboot-strategy" ∧
    Update.Units
        { Config := { RebootStrategy := "bogus", Group := "", Server := "" }
          ReadConfig := .ok (bufio.Scanner.ofLines []) }
      = ([{ Name := "locksmithd.service", Command := "restart", Mask := false,
            Runtime := true }], none) := by
  decide

/-- C9, amended.  `Update.Units` does not validate: for an option set that the
validator rejects it returns no error, it returns no action only when all three
fields are empty, and a reboot strategy that is neither empty nor `off` yields
the restart action for locksmithd.service as its first action. -/
theorem units_without_validation (AssertValid : config.Update → Option error) (uc : Update)
    (e : error) (_hinvalid : AssertValid uc.Config = some e) :
    uc.Units.2 = none ∧
    (uc.Units.1 = [] ↔
      uc.Config.RebootStrategy = "" ∧ uc.Config.Group = "" ∧ uc.Config.Server = "") ∧
    (uc.Config.RebootStrategy ≠ "" → uc.Config.RebootStrategy ≠ "off" →
      uc.Units.1.head? = some { Name := locksmithUnit, Command := "restart", Mask := false,
                                Runtime := true }) := by
  refine ⟨rfl, ?_, ?_⟩
  · unfold Update.Units
    by_cases hrs : uc.Config.RebootStrategy = "" <;>
      by_cases hg : uc.Config.Group = "" <;>
        by_cases hs : uc.Config.Server = "" <;> simp [hrs, hg, hs]
  · intro hrs hoff
    unfold Update.Units
    by_cases hgs : uc.Config.Group ≠ "" ∨ uc.Config.Server ≠ "" <;> simp [hrs, hoff, hgs]

/-- Witness of C9: the rejected reboot strategy `bogus`. -/
theorem units_without_validation_witness :
    (Update.Units
        { Config := { RebootStrategy := "bogus", Group := "", Server := "" }
          ReadConfig := .ok (bufio.Scanner.ofLines []) }).2 = none ∧
    ((Update.Units
        { Config := { RebootStrategy := "bogus", Group := "", Server := "" }
          ReadConfig := .ok (bufio.Scanner.ofLines []) }).1 = [] ↔
      "bogus" = "" ∧ "" = "" ∧ "" = "") ∧
    ("bogus" ≠ "" → "bogus" ≠ "off" →
      (Update.Units
        { Config := { RebootStrategy := "bogus", Group := "", Server := "" }
          ReadConfig := .ok (bufio.Scanner.ofLines []) }).1.head?
        = some { Name := locksmithUnit, Command := "restart", Mask := false,
                 Runtime := true }) :=
  units_without_validation enumValid
    { Config := { RebootStrategy := "bogus", Group := "", Server := "" }
      ReadConfig := .ok (bufio.Scanner.ofLines []) }
    "invalid value for reboot-strategy" (by decide)

/-- C10.  With reboot strategy `off` and group and server empty,
`Update.Units` returns exactly one action: locksmithd.service, command stop,
mask true (its runtime-only flag is true), and no error. -/
theorem units_off (uc : Update) (hrs : uc.Config.RebootStrategy = "off")
    (hg : uc.Config.Group = "") (hs : uc.Config.Server = "") :
    uc.Units = ([{ Name := "locksmithd.service", Command := "stop", Mask := true,
                   Runtime := true }], none) := by
  unfold Update.Units
  simp [hrs, hg, hs, locksmithUnit]

/-- Witness of C10. -/
theorem units_off_witness :
    Update.Units
        { Config := { RebootStrategy := "off", Group := "", Server := "" }
          ReadConfig := .error "unused" }
      = ([{ Name := "locksmithd.service", Command := "stop", Mask := true,
            Runtime := true }], none) :=
  units_off
    { Config := { RebootStrategy := "off", Group := "", Server := "" }
      ReadConfig := .error "unused" } rfl rfl rfl

/-- C11.  A reboot strategy that is neither empty nor `off` gives exactly one
action for locksmithd.service, with command restart, mask false and
runtime-only true; an empty reboot strategy gives no action for
locksmithd.service. -/
theorem units_locksmith (uc : Update) :
    (uc.Config.RebootStrategy ≠ "" → uc.Config.RebootStrategy ≠ "off" →
      uc.Units.1.filter (fun u => u.Name = locksmithUnit)
        = [{ Name := locksmithUnit, Command := "restart", Mask := false, Runtime := true }]) ∧
    (uc.Config.RebootStrategy = "" →
      uc.Units.1.filter (fun u => u.Name = locksmithUnit) = []) := by
  constructor
  · intro hrs hoff
    unfold Update.Units
    by_cases hgs : uc.Config.Group ≠ "" ∨ uc.Config.Server ≠ "" <;>
      simp [hrs, hoff, hgs, locksmithUnit, updateEngineUnit, List.filter_cons]
  · intro hrs
    unfold Update.Units
    by_cases hgs : uc.Config.Group ≠ "" ∨ uc.Config.Server ≠ "" <;>
      simp [hrs, hgs, locksmithUnit, updateEngineUnit, List.filter_cons]

/-- Witness of C11: the reboot strategy `etcd-lock` with a server set. -/
theorem units_locksmith_witness :
    (Update.Units
        { Config := { RebootStrategy := "etcd-lock", Group := "", Server := "http://u" }
          ReadConfig := .error "unused" }).1.filter (fun u => u.Name = locksmithUnit)
      = [{ Name := locksmithUnit, Command := "restart", Mask := false, Runtime := true }] :=
  (units_locksmith
    { Config := { RebootStrategy := "etcd-lock", Group := "", Server := "http://u" }
      ReadConfig := .error "unused" }).1 (by decide) (by decide)

/-- C12.  When group or server is non-empty, `Update.Units` gives exactly one
action for update-engine.service (one also when both are set), with command
restart, mask false and runtime-only false; when both are empty it gives no
action for update-engine.service. -/
theorem units_update_engine (uc : Update) :
    (uc.Config.Group ≠ "" ∨ uc.Config.Server ≠ "" →
      uc.Units.1.filter (fun u => u.Name = updateEngineUnit)
        = [{ Name := updateEngineUnit, Command := "restart", Mask := false,
             Runtime := false }]) ∧
    (uc.Config.Group = "" → uc.Config.Server = "" →
      uc.Units.1.filter (fun u => u.Name = updateEngineUnit) = []) := by
  constructor
  · intro hgs
    unfold Update.Units
    by_cases hrs : uc.Config.RebootStrategy = ""
    · simp [hrs, hgs, locksmithUnit, updateEngineUnit, List.filter_cons]
    · by_cases hoff : uc.Config.RebootStrategy = "off" <;>
        simp [hrs, hoff, hgs, locksmithUnit, updateEngineUnit, List.filter_cons]
  · intro hg hs
    unfold Update.Units
    by_cases hrs : uc.Config.RebootStrategy = ""
    · simp [hrs, hg, hs, locksmithUnit, updateEngineUnit, List.filter_cons]
    · by_cases hoff : uc.Config.RebootStrategy = "off" <;>
        simp [hrs, hoff, hg, hs, locksmithUnit, updateEngineUnit, List.filter_cons]

/-- Witness of C12: group and server both set, with the reboot strategy `off`. -/
theorem units_update_engine_witness :
    (Update.Units
        { Config := { RebootStrategy := "off", Group := "beta", Server := "http://u" }
          ReadConfig := .error "unused" }).1.filter (fun u => u.Name = updateEngineUnit)
      = [{ Name := updateEngineUnit, Command := "restart", Mask := false,
           Runtime := false }] :=
  (units_update_engine
    { Config := { RebootStrategy := "off", Group := "beta", Server := "http://u" }
      ReadConfig := .error "unused" }).1 (by decide)

/-- C13.  `Update.Units` returns no error and a list made of at most one action
for locksmithd.service followed by at most one action for
update-engine.service, hence at most two actions.  The scenario of the
specification: reboot strategy `best-effort` with group `stable` gives the
restart of locksmithd.service (runtime-only) and then the restart of
update-engine.service. -/
theorem units_order (uc : Update) :
    uc.Units.2 = none ∧ uc.Units.1.length ≤ 2 ∧
    (∃ ls ue : List Unit, uc.Units.1 = ls ++ ue ∧ ls.length ≤ 1 ∧ ue.length ≤ 1 ∧
      (∀ u ∈ ls, u.Name = locksmithUnit) ∧ (∀ u ∈ ue, u.Name = updateEngineUnit)) ∧
    Update.Units
        { Config := { RebootStrategy := "best-effort", Group := "stable", Server := "" }
          ReadConfig := uc.ReadConfig }
      = ([{ Name := "locksmithd.service", Command := "restart", Mask := false,
            Runtime := true },
          { Name := "update-engine.service", Command := "restart", Mask := false,
            Runtime := false }], none) := by
  refine ⟨rfl, ?_, ?_, rfl⟩
  · unfold Update.Units
    by_cases hrs : uc.Config.RebootStrategy = "" <;>
      by_cases hgs : uc.Config.Group ≠ "" ∨ uc.Config.Server ≠ "" <;> simp [hrs, hgs]
  · refine ⟨uc.Units.1.filter (fun u => u.Name = locksmithUnit),
      uc.Units.1.filter (fun u => u.Name = updateEngineUnit), ?_, ?_, ?_, ?_, ?_⟩ <;>
    · unfold Update.Units
      by_cases hrs : uc.Config.RebootStrategy = "" <;>
        by_cases hoff : uc.Config.RebootStrategy = "off" <;>
          by_cases hgs : uc.Config.Group ≠ "" ∨ uc.Config.Server ≠ "" <;>
            simp [hrs, hoff, hgs, locksmithUnit, updateEngineUnit, List.filter_cons]

/-- C15, counterexample.  When `os.Stat` fails with permission denied, the path
cannot be established to exist, and `IsAvailable` reports it as available. -/
theorem isAvailable_on_permission_denied :
    localFile.IsAvailable (fun _ => some os.Errno.EACCES) { path := "/media/configdrive/user_data" }
      = true := by
  decide

/-- C15, amended.  `IsAvailable` returns false exactly when `os.Stat` reports
that the path does not exist; when `os.Stat` succeeds, and when it fails in any
other way, `IsAvailable` returns true. -/
theorem isAvailable_iff (stat : String → Option os.Errno) (f : localFile) :
    (f.IsAvailable stat = false ↔ stat f.path = some os.Errno.ENOENT) ∧
    (stat f.path = none → f.IsAvailable stat = true) ∧
    (∀ e, stat f.path = some e → e ≠ os.Errno.ENOENT → f.IsAvailable stat = true) := by
  unfold localFile.IsAvailable os.IsNotExist
  refine ⟨?_, ?_, ?_⟩
  · cases h : stat f.path with
    | none => simp
    | some e => cases e <;> simp
  · intro h
    simp [h]
  · intro e h hne
    cases e <;> simp_all

/-- Witness of C15: a failing disk read counts as available. -/
theorem isAvailable_iff_witness :
    localFile.IsAvailable (fun _ => some os.Errno.EIO) { path := "/media/configdrive/user_data" }
      = true :=
  (isAvailable_iff (fun _ => some os.Errno.EIO) { path := "/media/configdrive/user_data" }).2.2
    os.Errno.EIO rfl (by decide)

/-- C16.  Whenever `Update.File` returns an artifact, its path is
`etc/coreos/update.conf` and its permission string is `0644`. -/
theorem file_path_and_permissions (AssertValid : config.Update → Option error)
    (ord : RangeOrder) (uc : Update) (f : File) (h : (uc.File AssertValid ord).file = some f) :
    f.Path = "etc/coreos/update.conf" ∧ f.RawFilePermissions = "0644" := by
  unfold Update.File at h
  split at h
  · cases h
  · split at h
    · cases h
    · split at h
      · cases h
      · split at h
        · cases h
        · simp only [Option.some.injEq] at h
          subst h
          exact ⟨by
            show path.Join ["etc", "coreos", "update.conf"] = "etc/coreos/update.conf"
            decide, rfl⟩

/-- Witness of C16: group `stable` over the base file `GROUP=alpha`. -/
theorem file_path_and_permissions_witness :
    ({ Path := "etc/coreos/update.conf", RawFilePermissions := "0644",
       Content := "GROUP=stable\n" } : File).Path = "etc/coreos/update.conf" ∧
    ({ Path := "etc/coreos/update.conf", RawFilePermissions := "0644",
       Content := "GROUP=stable\n" } : File).RawFilePermissions = "0644" :=
  file_path_and_permissions enumValid RangeOrder.listed
    { Config := { RebootStrategy := "", Group := "stable", Server := "" }
      ReadConfig := .ok (bufio.Scanner.ofLines ["GROUP=alpha"]) }
    { Path := "etc/coreos/update.conf", RawFilePermissions := "0644",
      Content := "GROUP=stable\n" } (by decide)

theorem substitutions_eq_map (fs : List (String × String)) :
    fs.filterMap fieldEntry
      = (fs.filter (fun f => f.2 ≠ "")).map (fun f => (f.1, f.1 ++ "=" ++ f.2)) := by
  induction fs with
  | nil => rfl
  | cons f fs ih =>
    by_cases hv : f.2 = ""
    · simp [List.filterMap_cons, List.filter_cons, fieldEntry, hv, ih]
    · simp [List.filterMap_cons, List.filter_cons, fieldEntry, hv, ih]

/-- A substitution is used for a base line or remains after the scan. -/
theorem rewriteLines_uses_or_keeps (lines : List String) :
    ∀ (m : Subs), PrefixFree (m.map Prod.fst) → ∀ e ∈ m,
      e.2 ∈ (rewriteLines m lines).1 ∨ e ∈ (rewriteLines m lines).2 := by
  induction lines with
  | nil => intro m _ e he; exact Or.inr he
  | cons l0 ls ih =>
    intro m hpf e he
    rw [rewriteLines_cons]
    have hpf2 := substitute_prefixFree hpf l0
    rcases substitute_cases m hpf l0 with ⟨_, hs⟩ | ⟨e0, he0, _, hs⟩
    · rw [hs] at hpf2 ⊢
      rcases ih m hpf2 e he with h | h
      · exact Or.inl (List.mem_cons_of_mem _ h)
      · exact Or.inr h
    · rw [hs] at hpf2 ⊢
      by_cases heq : e.1 = e0.1
      · have : e = e0 := by
          have hnd := prefixFree_nodup hpf
          have h1 := lookup_of_mem hnd (k := e.1) (v := e.2) he
          have h2 := lookup_of_mem hnd (k := e0.1) (v := e0.2) he0
          rw [heq, h2] at h1
          exact Prod.ext heq (Option.some.inj h1).symm
        left
        rw [this]
        exact List.mem_cons_self _ _
      · rcases ih _ hpf2 e (mem_delete.2 ⟨he, heq⟩) with h | h
        · exact Or.inl (List.mem_cons_of_mem _ h)
        · exact Or.inr h

/-- C17.  Prefix matching is by prefix, not by whole key: when a server is set
and the first base line that starts with `SERVER` is `SERVER_BACKUP=x`, with
`SERVER=old` on a later line, the written lines have `SERVER=` followed by the
server in place of `SERVER_BACKUP=x` and keep `SERVER=old`.  For the server `v`
and the base file `SERVER_BACKUP=x`, `SERVER=old` the content is `SERVER=v`,
`SERVER=old`. -/
theorem file_rewrites_unrelated_line (AssertValid : config.Update → Option error)
    (ord : RangeOrder) (hord : ord.Valid) (uc : Update) (lines : List String)
    (hset : config.IsZero uc.Config = false) (hvalid : AssertValid uc.Config = none)
    (hread : uc.ReadConfig = .ok (bufio.Scanner.ofLines lines))
    (hs : uc.Config.Server ≠ "") (i j : Nat) (hi : lines[i]? = some "SERVER_BACKUP=x")
    (hfirst : ∀ l ∈ lines.take i, strings.HasPrefix l "SERVER" = false)
    (hij : i < j) (hj : lines[j]? = some "SERVER=old") :
    (∃ (f : File) (derived appended : List String),
      uc.File AssertValid ord = { file := some f, err := none, readConfigCalls := 1 } ∧
      f.Content = joinLines (derived ++ appended) ∧ derived.length = lines.length ∧
      derived[i]? = some ("SERVER" ++ "=" ++ uc.Config.Server) ∧
      derived[j]? = some "SERVER=old") ∧
    Update.File enumValid RangeOrder.listed
        { Config := { RebootStrategy := "", Group := "", Server := "v" }
          ReadConfig := .ok (bufio.Scanner.ofLines ["SERVER_BACKUP=x", "SERVER=old"]) }
      = { file := some
            { Path := "etc/coreos/update.conf"
              RawFilePermissions := "0644"
              Content := joinLines ["SERVER=v", "SERVER=old"] }
          err := none
          readConfigCalls := 1 } := by
  have hfs := fields_prefixFree uc.Config
  have hpf := substitutions_prefixFree hfs
  have hmem : ("SERVER", "SERVER" ++ "=" ++ uc.Config.Server) ∈ substitutions uc.Config.fields :=
    (mem_substitutions hfs _).2 ⟨uc.Config.Server, by simp [config.Update.fields], hs, rfl⟩
  have hfirst2 : ∀ k < i, ∀ l₀, lines[k]? = some l₀ → strings.HasPrefix l₀ "SERVER" = false :=
    fun k hk l₀ hl₀ => hfirst l₀ (mem_take_of_getElem? hk hl₀)
  have hsb0 : strings.HasPrefix "SERVER_BACKUP=x" "SERVER" = true := by decide
  refine ⟨?_, by decide⟩
  rw [file_ofLines AssertValid hord uc lines hset hvalid hread]
  refine ⟨_, _, _, rfl, rfl, rewriteLines_length lines _,
    rewriteLines_first lines _ hpf _ hmem i _ hi hsb0 hfirst2, ?_⟩
  rcases rewriteLines_spec lines _ hpf j _ hj with h | ⟨e, he, hpe, _, hfj⟩
  · exact h
  · exfalso
    obtain ⟨w, hw, _, _⟩ := (mem_substitutions hfs e).1 he
    have hsb := hfj i hij _ hi
    simp only [config.Update.fields, List.mem_cons, Prod.mk.injEq, List.mem_nil_iff,
      or_false] at hw
    rcases hw with ⟨h1, _⟩ | ⟨h1, _⟩ | ⟨h1, _⟩
    · rw [h1] at hpe
      exact absurd hpe (by decide)
    · rw [h1] at hpe
      exact absurd hpe (by decide)
    · rw [h1] at hsb
      exact absurd hsb (by decide)

/-- Witness of C17: group and server set, a comment before the
`SERVER_BACKUP=x` line and a GROUP line between it and `SERVER=old`. -/
theorem file_rewrites_unrelated_line_witness :
    ∃ (f : File) (derived appended : List String),
      Update.File enumValid RangeOrder.reversed
          { Config := { RebootStrategy := "", Group := "beta", Server := "http://u" }
            ReadConfig := .ok (bufio.Scanner.ofLines
              ["# servers", "SERVER_BACKUP=x", "GROUP=alpha", "SERVER=old"]) }
        = { file := some f, err := none, readConfigCalls := 1 } ∧
      f.Content = joinLines (derived ++ appended) ∧
      derived.length = ["# servers", "SERVER_BACKUP=x", "GROUP=alpha", "SERVER=old"].length ∧
      derived[1]? = some ("SERVER" ++ "=" ++ "http://u") ∧
      derived[3]? = some "SERVER=old" :=
  (file_rewrites_unrelated_line enumValid RangeOrder.reversed
    (fun _ m => List.reverse_perm m)
    { Config := { RebootStrategy := "", Group := "beta", Server := "http://u" }
      ReadConfig := .ok (bufio.Scanner.ofLines
        ["# servers", "SERVER_BACKUP=x", "GROUP=alpha", "SERVER=old"]) }
    ["# servers", "SERVER_BACKUP=x", "GROUP=alpha", "SERVER=old"] (by decide) (by decide) rfl
    (by decide) 1 3 rfl (by decide) (by decide) rfl).1

/-- C19 (no override is lost).  The substitution map has one entry
`K ↦ "K=v"` for each non-empty field, in field order, and nothing else; and for
a non-empty, valid option set and a base file read without error, every such
`K=v` is one of the lines of the content. -/
theorem file_writes_every_override (AssertValid : config.Update → Option error)
    (ord : RangeOrder) (hord : ord.Valid) (uc : Update) (lines : List String)
    (hset : config.IsZero uc.Config = false) (hvalid : AssertValid uc.Config = none)
    (hread : uc.ReadConfig = .ok (bufio.Scanner.ofLines lines)) :
    substitutions uc.Config.fields
      = (uc.Config.fields.filter (fun g => g.2 ≠ "")).map
          (fun g => (g.1, g.1 ++ "=" ++ g.2)) ∧
    ((substitutions uc.Config.fields).map Prod.fst).Nodup ∧
    ∃ (f : File) (out : List String),
      uc.File AssertValid ord = { file := some f, err := none, readConfigCalls := 1 } ∧
      f.Content = joinLines out ∧
      ∀ g ∈ uc.Config.fields, g.2 ≠ "" → (g.1 ++ "=" ++ g.2) ∈ out := by
  have hfs := fields_prefixFree uc.Config
  have hpf := substitutions_prefixFree hfs
  refine ⟨?_, prefixFree_nodup hpf, ?_⟩
  · rw [substitutions_eq _ (prefixFree_nodup hfs), substitutions_eq_map]
  · rw [file_ofLines AssertValid hord uc lines hset hvalid hread]
    refine ⟨_, _, rfl, rfl, ?_⟩
    intro g hg hne
    have hmem : (g.1, g.1 ++ "=" ++ g.2) ∈ substitutions uc.Config.fields :=
      (mem_substitutions hfs _).2 ⟨g.2, hg, hne, rfl⟩
    rcases rewriteLines_uses_or_keeps lines _ hpf _ hmem with h | h
    · exact List.mem_append_left _ h
    · exact List.mem_append_right _
        ((appended_perm hpf lines).mem_iff.2 (List.mem_map.2 ⟨_, h, rfl⟩))

/-- Witness of C19: reboot strategy and group set over a base file with a
GROUP line only. -/
theorem file_writes_every_override_witness :
    substitutions (config.Update.fields
        { RebootStrategy := "reboot", Group := "beta", Server := "" })
      = ((config.Update.fields
          { RebootStrategy := "reboot", Group := "beta", Server := "" }).filter
            (fun g => g.2 ≠ "")).map (fun g => (g.1, g.1 ++ "=" ++ g.2)) ∧
    ((substitutions (config.Update.fields
        { RebootStrategy := "reboot", Group := "beta", Server := "" })).map Prod.fst).Nodup ∧
    ∃ (f : File) (out : List String),
      Update.File enumValid RangeOrder.listed
          { Config := { RebootStrategy := "reboot", Group := "beta", Server := "" }
            ReadConfig := .ok (bufio.Scanner.ofLines ["GROUP=alpha"]) }
        = { file := some f, err := none, readConfigCalls := 1 } ∧
      f.Content = joinLines out ∧
      ∀ g ∈ config.Update.fields { RebootStrategy := "reboot", Group := "beta", Server := "" },
        g.2 ≠ "" → (g.1 ++ "=" ++ g.2) ∈ out :=
  file_writes_every_override enumValid RangeOrder.listed (fun _ _ => List.Perm.refl _)
    { Config := { RebootStrategy := "reboot", Group := "beta", Server := "" }
      ReadConfig := .ok (bufio.Scanner.ofLines ["GROUP=alpha"]) }
    ["GROUP=alpha"] (by decide) (by decide) rfl

/-! ### Scanning a content again -/

theorem dropCR_data_subset (t : String) : ∀ c ∈ (bufio.dropCR t).data, c ∈ t.data := by
  intro c hc
  unfold bufio.dropCR at hc
  split at hc
  · exact (List.dropLast_sublist _).subset hc
  · exact hc

theorem scanLinesFrom_line (l : List Char) (hl : '\n' ∉ l) (rest : List Char) :
    ∀ cur : List Char, bufio.scanLinesFrom (l ++ '\n' :: rest) cur
      = bufio.dropCR ⟨cur ++ l⟩ :: bufio.scanLinesFrom rest [] := by
  induction l with
  | nil => intro cur; simp [bufio.scanLinesFrom]
  | cons c l ih =>
    intro cur
    have hc : c ≠ '\n' := fun h => hl (by simp [h])
    have hl2 : '\n' ∉ l := fun h => hl (List.mem_cons_of_mem _ h)
    have hstep : bufio.scanLinesFrom ((c :: l) ++ '\n' :: rest) cur
        = bufio.scanLinesFrom (l ++ '\n' :: rest) (cur ++ [c]) := by
      simp only [List.cons_append, bufio.scanLinesFrom, hc, if_false]
      rfl
    rw [hstep, ih hl2 (cur ++ [c])]
    simp

theorem scanLines_joinLines (out : List String) (hout : ∀ l ∈ out, '\n' ∉ l.data) :
    bufio.ScanLines (joinLines out) = out.map bufio.dropCR := by
  induction out with
  | nil => rfl
  | cons l ls ih =>
    have hl : '\n' ∉ l.data := hout l (List.mem_cons_self _ _)
    have hls : ∀ x ∈ ls, '\n' ∉ x.data := fun x hx => hout x (List.mem_cons_of_mem _ hx)
    have hdata : (joinLines (l :: ls)).data = l.data ++ '\n' :: (joinLines ls).data := by
      rw [joinLines_cons]
      simp only [String.data_append, List.append_assoc]
      rfl
    unfold bufio.ScanLines
    rw [hdata, scanLinesFrom_line l.data hl]
    simp only [List.nil_append, List.map_cons]
    congr 1
    exact ih hls

theorem scanLinesFrom_newline_free (rest : List Char) :
    ∀ cur : List Char, '\n' ∉ cur → ∀ t ∈ bufio.scanLinesFrom rest cur, '\n' ∉ t.data := by
  induction rest with
  | nil =>
    intro cur hcur t ht
    unfold bufio.scanLinesFrom at ht
    split at ht
    · cases ht
    · simp only [List.mem_singleton] at ht
      subst ht
      exact fun h => hcur (dropCR_data_subset _ _ h)
  | cons c rest ih =>
    intro cur hcur t ht
    unfold bufio.scanLinesFrom at ht
    split at ht
    · rcases List.mem_cons.1 ht with h | h
      · subst h
        exact fun h => hcur (dropCR_data_subset _ _ h)
      · exact ih [] (by simp) t h
    · rename_i hc
      refine ih (cur ++ [c]) ?_ t ht
      intro h
      rcases List.mem_append.1 h with h | h
      · exact hcur h
      · simp only [List.mem_singleton] at h
        exact hc h.symm

theorem scanLines_newline_free (data : String) :
    ∀ t ∈ bufio.ScanLines data, '\n' ∉ t.data :=
  scanLinesFrom_newline_free data.data [] (by simp)

theorem joinLines_ends (out : List String) (hne : out ≠ []) :
    ∃ s, joinLines out = s ++ "\n" := by
  induction out with
  | nil => exact absurd rfl hne
  | cons l ls ih =>
    cases ls with
    | nil => exact ⟨l, by simp [joinLines]⟩
    | cons l2 ls =>
      obtain ⟨s, hs⟩ := ih (by simp)
      exact ⟨l ++ "\n" ++ s, by rw [joinLines_cons, hs]; simp only [String.append_assoc]⟩

theorem rewriteLines_mem (lines : List String) :
    ∀ (m : Subs), PrefixFree (m.map Prod.fst) → ∀ x ∈ (rewriteLines m lines).1,
      x ∈ lines ∨ ∃ e ∈ m, e.2 = x := by
  induction lines with
  | nil => intro m _ x hx; cases hx
  | cons l0 ls ih =>
    intro m hpf x hx
    rw [rewriteLines_cons] at hx
    have hpf2 := substitute_prefixFree hpf l0
    rcases substitute_cases m hpf l0 with ⟨_, hs⟩ | ⟨e0, he0, _, hs⟩
    · rw [hs] at hx hpf2
      rcases List.mem_cons.1 hx with h | h
      · exact Or.inl (by rw [h]; exact List.mem_cons_self _ _)
      · rcases ih m hpf2 x h with h | h
        · exact Or.inl (List.mem_cons_of_mem _ h)
        · exact Or.inr h
    · rw [hs] at hx hpf2
      rcases List.mem_cons.1 hx with h | h
      · exact Or.inr ⟨e0, he0, h.symm⟩
      · rcases ih _ hpf2 x h with h | ⟨e, he, hx⟩
        · exact Or.inl (List.mem_cons_of_mem _ h)
        · exact Or.inr ⟨e, (mem_delete.1 he).1, hx⟩

/-- The lines that `Update.File` writes come from the base file or are rendered
lines of configured keys. -/
theorem written_mem (c : config.Update) (lines : List String) :
    ∀ x ∈ (rewriteLines (substitutions c.fields) lines).1 ++
        (sort.Strings ((rewriteLines (substitutions c.fields) lines).2.map Prod.fst)).map
          (rewriteLines (substitutions c.fields) lines).2.get,
      x ∈ lines ∨ ∃ e ∈ substitutions c.fields, e.2 = x := by
  intro x hx
  have hpf := substitutions_prefixFree (fields_prefixFree c)
  rcases List.mem_append.1 hx with h | h
  · exact rewriteLines_mem lines _ hpf x h
  · obtain ⟨e, he, hex⟩ := List.mem_map.1 ((appended_perm hpf lines).mem_iff.1 h)
    exact Or.inr ⟨e, (remaining_sublist hpf lines).subset he, hex⟩

theorem substitutions_newline_free (c : config.Update)
    (hval : ∀ g ∈ c.fields, '\n' ∉ g.2.data) :
    ∀ e ∈ substitutions c.fields, '\n' ∉ e.2.data := by
  intro e he
  obtain ⟨v, hv, _, hr⟩ := (mem_substitutions (fields_prefixFree c) e).1 he
  have hvn := hval _ hv
  rw [hr]
  simp only [String.data_append, List.mem_append, not_or]
  refine ⟨⟨?_, by decide⟩, hvn⟩
  simp only [config.Update.fields, List.mem_cons, Prod.mk.injEq, List.mem_nil_iff,
    or_false] at hv
  rcases hv with ⟨h1, _⟩ | ⟨h1, _⟩ | ⟨h1, _⟩ <;> rw [h1] <;> decide

theorem written_newline_free (c : config.Update) (lines : List String)
    (hl : ∀ l ∈ lines, '\n' ∉ l.data) (hval : ∀ g ∈ c.fields, '\n' ∉ g.2.data) :
    ∀ x ∈ (rewriteLines (substitutions c.fields) lines).1 ++
        (sort.Strings ((rewriteLines (substitutions c.fields) lines).2.map Prod.fst)).map
          (rewriteLines (substitutions c.fields) lines).2.get,
      '\n' ∉ x.data := by
  intro x hx
  rcases written_mem c lines x hx with h | ⟨e, he, hex⟩
  · exact hl x h
  · rw [← hex]
    exact substitutions_newline_free c hval e he

/-! ### Raw lines, the size limit and the lines of a content -/

theorem scanLinesFrom_eq_map (rest : List Char) :
    ∀ cur : List Char,
      bufio.scanLinesFrom rest cur = (bufio.splitLinesFrom rest cur).map bufio.dropCR := by
  induction rest with
  | nil =>
    intro cur
    unfold bufio.scanLinesFrom bufio.splitLinesFrom
    split <;> rfl
  | cons c rest ih =>
    intro cur
    unfold bufio.scanLinesFrom bufio.splitLinesFrom
    split
    · rw [ih]
      rfl
    · exact ih _

theorem scanLines_eq_map (data : String) :
    bufio.ScanLines data = (textLines data).map bufio.dropCR :=
  scanLinesFrom_eq_map data.data []

theorem splitLinesFrom_line (l : List Char) (hl : '\n' ∉ l) (rest : List Char) :
    ∀ cur : List Char, bufio.splitLinesFrom (l ++ '\n' :: rest) cur
      = ⟨cur ++ l⟩ :: bufio.splitLinesFrom rest [] := by
  induction l with
  | nil => intro cur; simp [bufio.splitLinesFrom]
  | cons c l ih =>
    intro cur
    have hc : c ≠ '\n' := fun h => hl (by simp [h])
    have hl2 : '\n' ∉ l := fun h => hl (List.mem_cons_of_mem _ h)
    have hstep : bufio.splitLinesFrom ((c :: l) ++ '\n' :: rest) cur
        = bufio.splitLinesFrom (l ++ '\n' :: rest) (cur ++ [c]) := by
      simp only [List.cons_append, bufio.splitLinesFrom, hc, if_false]
      rfl
    rw [hstep, ih hl2 (cur ++ [c])]
    simp

/-- The lines of a content made of newline-free lines, each followed by a
newline, are those lines. -/
theorem textLines_joinLines (out : List String) (hout : ∀ l ∈ out, '\n' ∉ l.data) :
    textLines (joinLines out) = out := by
  induction out with
  | nil => rfl
  | cons l ls ih =>
    have hl : '\n' ∉ l.data := hout l (List.mem_cons_self _ _)
    have hls : ∀ x ∈ ls, '\n' ∉ x.data := fun x hx => hout x (List.mem_cons_of_mem _ hx)
    have hdata : (joinLines (l :: ls)).data = l.data ++ '\n' :: (joinLines ls).data := by
      rw [joinLines_cons]
      simp only [String.data_append, List.append_assoc]
      rfl
    unfold textLines
    rw [hdata, splitLinesFrom_line l.data hl]
    simp only [List.nil_append]
    congr 1
    exact ih hls

theorem ofContent_err (data : String) :
    (bufio.Scanner.ofContent data).err = none ↔ ∀ l ∈ textLines data, bufio.fits l = true := by
  unfold bufio.Scanner.ofContent
  simp only
  rw [← List.all_eq_true]
  cases (textLines data).all bufio.fits <;> simp

/-- A base file in which every raw line fits is scanned to the end without
error. -/
theorem ofContent_of_fits (data : String) (h : ∀ l ∈ textLines data, bufio.fits l = true) :
    bufio.Scanner.ofContent data = bufio.Scanner.ofLines (bufio.ScanLines data) := by
  unfold bufio.Scanner.ofContent bufio.Scanner.ofLines
  rw [List.takeWhile_eq_self_iff.2 h, List.all_eq_true.2 h, scanLines_eq_map, List.map_map]
  rfl

theorem utf8ByteSize_go_dropLast (l : List Char) :
    String.utf8ByteSize.go l.dropLast ≤ String.utf8ByteSize.go l := by
  induction l with
  | nil => exact Nat.le_refl _
  | cons c l ih =>
    cases l with
    | nil => exact Nat.zero_le _
    | cons c₂ l =>
      have hstep : (c :: c₂ :: l).dropLast = c :: (c₂ :: l).dropLast := rfl
      rw [hstep]
      exact Nat.add_le_add_right ih _

theorem fits_dropCR {l : String} (h : bufio.fits l = true) :
    bufio.fits (bufio.dropCR l) = true := by
  unfold bufio.fits at *
  simp only [decide_eq_true_eq] at *
  unfold bufio.dropCR
  split
  · exact Nat.lt_of_le_of_lt (utf8ByteSize_go_dropLast l.data) h
  · exact h

/-- The tokens of a base file that is scanned without error fit. -/
theorem scanLines_fit (data : String) (h : ∀ l ∈ textLines data, bufio.fits l = true) :
    ∀ t ∈ bufio.ScanLines data, bufio.fits t = true := by
  intro t ht
  rw [scanLines_eq_map] at ht
  obtain ⟨l, hl, rfl⟩ := List.mem_map.1 ht
  exact fits_dropCR (h l hl)

/-- `Update.File` on a base file with content `base` that is scanned to the end
without error. -/
theorem file_ofContent (AssertValid : config.Update → Option error) {ord : RangeOrder}
    (hord : ord.Valid) (uc : Update) (base : String)
    (hset : config.IsZero uc.Config = false) (hvalid : AssertValid uc.Config = none)
    (hread : uc.ReadConfig = .ok (bufio.Scanner.ofContent base))
    (hok : (bufio.Scanner.ofContent base).err = none) :
    uc.File AssertValid ord =
      { file := some
          { Path := "etc/coreos/update.conf"
            RawFilePermissions := "0644"
            Content := joinLines
              ((rewriteLines (substitutions uc.Config.fields) (bufio.ScanLines base)).1 ++
              (sort.Strings ((rewriteLines (substitutions uc.Config.fields)
                (bufio.ScanLines base)).2.map Prod.fst)).map
                (rewriteLines (substitutions uc.Config.fields) (bufio.ScanLines base)).2.get) }
        err := none
        readConfigCalls := 1 } := by
  rw [ofContent_of_fits base ((ofContent_err base).1 hok)] at hread
  exact file_ofLines AssertValid hord uc (bufio.ScanLines base) hset hvalid hread

/-- When no configured value contains a newline, the lines of the content are
the lines that `Update.File` wrote. -/
theorem textLines_written (c : config.Update) (base : String)
    (hval : ∀ g ∈ c.fields, '\n' ∉ g.2.data) :
    textLines (joinLines
        ((rewriteLines (substitutions c.fields) (bufio.ScanLines base)).1 ++
        (sort.Strings ((rewriteLines (substitutions c.fields)
          (bufio.ScanLines base)).2.map Prod.fst)).map
          (rewriteLines (substitutions c.fields) (bufio.ScanLines base)).2.get))
      = (rewriteLines (substitutions c.fields) (bufio.ScanLines base)).1 ++
        (sort.Strings ((rewriteLines (substitutions c.fields)
          (bufio.ScanLines base)).2.map Prod.fst)).map
          (rewriteLines (substitutions c.fields) (bufio.ScanLines base)).2.get :=
  textLines_joinLines _ (written_newline_free c _ (scanLines_newline_free base) hval)

theorem take_append_eq {α : Type} {xs ys : List α} {n : Nat} (h : xs.length = n) :
    (xs ++ ys).take n = xs := by
  subst h
  exact List.take_left _ _

theorem drop_append_eq {α : Type} {xs ys : List α} {n : Nat} (h : xs.length = n) :
    (xs ++ ys).drop n = ys := by
  subst h
  exact List.drop_left _ _

/-- C1, counterexample.  With group set to `a`, newline, `b`, the base file
`GROUP=x`, `keep` gives the content `GROUP=a`, `b`, `keep`: the base line
`keep` at index 1, which no configured key prefixes, is line 2 of the content,
and line 1 is `b`. -/
theorem file_moves_line_after_multiline_value :
    Update.File enumValid RangeOrder.listed
        { Config := { RebootStrategy := "", Group := "a\nb", Server := "" }
          ReadConfig := .ok (bufio.Scanner.ofContent "GROUP=x\nkeep\n") }
      = { file := some
            { Path := "etc/coreos/update.conf"
              RawFilePermissions := "0644"
              Content := "GROUP=a\nb\nkeep\n" }
          err := none
          readConfigCalls := 1 } ∧
    (bufio.ScanLines "GROUP=x\nkeep\n")[1]? = some "keep" ∧
    strings.HasPrefix "keep" "GROUP" = false ∧
    (textLines "GROUP=a\nb\nkeep\n")[1]? = some "b" ∧
    (textLines "GROUP=a\nb\nkeep\n")[2]? = some "keep" := by
  decide

/-- C1 (round-trip preservation), amended.  For a non-empty option set that the
validator accepts and none of whose values contains a newline, and a base file
with content `base` that is read without error, `Update.File` returns an
artifact, and a base line at index `i` that no configured key prefixes is line
`i` of the content. -/
theorem file_keeps_unmatched_lines (AssertValid : config.Update → Option error)
    (ord : RangeOrder) (hord : ord.Valid) (uc : Update) (base : String)
    (hset : config.IsZero uc.Config = false) (hvalid : AssertValid uc.Config = none)
    (hread : uc.ReadConfig = .ok (bufio.Scanner.ofContent base))
    (hok : (bufio.Scanner.ofContent base).err = none)
    (hval : ∀ g ∈ uc.Config.fields, '\n' ∉ g.2.data)
    (i : Nat) (line : String) (hline : (bufio.ScanLines base)[i]? = some line)
    (hno : ∀ f ∈ uc.Config.fields, f.2 ≠ "" → strings.HasPrefix line f.1 = false) :
    ∃ f : File,
      uc.File AssertValid ord = { file := some f, err := none, readConfigCalls := 1 } ∧
      (textLines f.Content)[i]? = some line := by
  rw [file_ofContent AssertValid hord uc base hset hvalid hread hok]
  refine ⟨_, rfl, ?_⟩
  simp only
  rw [textLines_written uc.Config base hval]
  have hpf := substitutions_prefixFree (fields_prefixFree uc.Config)
  apply getElem?_append_of_some
  rcases rewriteLines_spec (bufio.ScanLines base) _ hpf i line hline with h | ⟨e, he, hp, _, _⟩
  · exact h
  · obtain ⟨v, hv, hne, _⟩ := (mem_substitutions (fields_prefixFree uc.Config) e).1 he
    have := hno (e.1, v) hv hne
    rw [hp] at this
    cases this

/-- Witness of C1: with group `stable`, the comment line of the base file
`GROUP=alpha`, `# comment` (no newline after the last line) stays line 1. -/
theorem file_keeps_unmatched_lines_witness :
    ∃ f : File,
      Update.File enumValid RangeOrder.listed
          { Config := { RebootStrategy := "", Group := "stable", Server := "" }
            ReadConfig := .ok (bufio.Scanner.ofContent "GROUP=alpha\n# comment") }
        = { file := some f, err := none, readConfigCalls := 1 } ∧
      (textLines f.Content)[1]? = some "# comment" :=
  file_keeps_unmatched_lines enumValid RangeOrder.listed (fun _ _ => List.Perm.refl _)
    { Config := { RebootStrategy := "", Group := "stable", Server := "" }
      ReadConfig := .ok (bufio.Scanner.ofContent "GROUP=alpha\n# comment") }
    "GROUP=alpha\n# comment" (by decide) (by decide) rfl (by decide) (by decide)
    1 "# comment" (by decide) (by decide)

/-- C3, counterexample.  With server `evil` and group set to `a`, newline,
`SERVER=evil`, the base file `GROUP=old`, `z` has no line prefixed by SERVER,
yet the content `GROUP=a`, `SERVER=evil`, `z`, `SERVER=evil` has two lines
equal to the rendering of SERVER, one of them before the base line `z`. -/
theorem file_repeats_line_of_multiline_value :
    Update.File enumValid RangeOrder.listed
        { Config := { RebootStrategy := "", Group := "a\nSERVER=evil", Server := "evil" }
          ReadConfig := .ok (bufio.Scanner.ofContent "GROUP=old\nz\n") }
      = { file := some
            { Path := "etc/coreos/update.conf"
              RawFilePermissions := "0644"
              Content := "GROUP=a\nSERVER=evil\nz\nSERVER=evil\n" }
          err := none
          readConfigCalls := 1 } ∧
    (∀ l ∈ bufio.ScanLines "GROUP=old\nz\n", strings.HasPrefix l "SERVER" = false) ∧
    textLines "GROUP=a\nSERVER=evil\nz\nSERVER=evil\n"
      = ["GROUP=a", "SERVER=evil", "z", "SERVER=evil"] ∧
    (textLines "GROUP=a\nSERVER=evil\nz\nSERVER=evil\n").count "SERVER=evil" = 2 := by
  decide

/-- C3 (append-on-miss), amended.  For an option set none of whose values
contains a newline and a base file of `n` lines read without error: when key
`K` is set to `v` and no base line is prefixed by `K`, exactly one line of the
content equals `K=v`, and it is not among the first `n` lines (those written
for the base lines) but among the lines after them. -/
theorem file_appends_missing_key (AssertValid : config.Update → Option error)
    (ord : RangeOrder) (hord : ord.Valid) (uc : Update) (base : String)
    (hset : config.IsZero uc.Config = false) (hvalid : AssertValid uc.Config = none)
    (hread : uc.ReadConfig = .ok (bufio.Scanner.ofContent base))
    (hok : (bufio.Scanner.ofContent base).err = none)
    (hval : ∀ g ∈ uc.Config.fields, '\n' ∉ g.2.data)
    (K v : String) (hK : (K, v) ∈ uc.Config.fields) (hv : v ≠ "")
    (hmiss : ∀ l ∈ bufio.ScanLines base, strings.HasPrefix l K = false) :
    ∃ f : File,
      uc.File AssertValid ord = { file := some f, err := none, readConfigCalls := 1 } ∧
      (textLines f.Content).count (K ++ "=" ++ v) = 1 ∧
      (K ++ "=" ++ v) ∉ (textLines f.Content).take (bufio.ScanLines base).length ∧
      (K ++ "=" ++ v) ∈ (textLines f.Content).drop (bufio.ScanLines base).length := by
  have hfs := fields_prefixFree uc.Config
  have hpf := substitutions_prefixFree hfs
  have hmem : (K, K ++ "=" ++ v) ∈ substitutions uc.Config.fields :=
    (mem_substitutions hfs _).2 ⟨v, hK, hv, rfl⟩
  have hrem : (K, K ++ "=" ++ v) ∈
      (rewriteLines (substitutions uc.Config.fields) (bufio.ScanLines base)).2 :=
    (mem_remaining hpf _ _).2 ⟨hmem, hmiss⟩
  have hperm := appended_perm hpf (bufio.ScanLines base)
  have hvals : ((rewriteLines (substitutions uc.Config.fields)
      (bufio.ScanLines base)).2.map Prod.snd).Nodup := by
    refine List.Nodup.map_on ?_ ((remaining_nodup hpf _).of_map _)
    intro a ha b hb hab
    exact substitutions_value_inj hfs ((remaining_sublist hpf _).subset ha)
      ((remaining_sublist hpf _).subset hb) hab
  have hin : (K ++ "=" ++ v) ∈
      (rewriteLines (substitutions uc.Config.fields) (bufio.ScanLines base)).2.map Prod.snd :=
    List.mem_map.2 ⟨_, hrem, rfl⟩
  have hnot : (K ++ "=" ++ v) ∉
      (rewriteLines (substitutions uc.Config.fields) (bufio.ScanLines base)).1 := by
    intro hx
    obtain ⟨j, hj⟩ := List.mem_iff_getElem?.1 hx
    have hjlt : j < (bufio.ScanLines base).length := by
      rw [← rewriteLines_length (bufio.ScanLines base) (substitutions uc.Config.fields)]
      by_contra hge
      rw [List.getElem?_eq_none (Nat.le_of_not_lt hge)] at hj
      cases hj
    have hl : (bufio.ScanLines base)[j]? = some (bufio.ScanLines base)[j] :=
      List.getElem?_eq_getElem hjlt
    have hlm : (bufio.ScanLines base)[j] ∈ bufio.ScanLines base := List.getElem_mem _
    rcases rewriteLines_spec _ _ hpf j _ hl with h | ⟨e, he, hpe, hout, _⟩
    · rw [hj] at h
      have heq : K ++ "=" ++ v = (bufio.ScanLines base)[j] := Option.some.inj h
      have h1 := substitutions_selfPrefixed hfs hmem
      simp only at h1
      rw [heq, hmiss _ hlm] at h1
      cases h1
    · rw [hj] at hout
      have heq : K ++ "=" ++ v = e.2 := Option.some.inj hout
      have h2 : (K, K ++ "=" ++ v) = e := substitutions_value_inj hfs hmem he heq
      rw [← h2] at hpe
      rw [hmiss _ hlm] at hpe
      cases hpe
  rw [file_ofContent AssertValid hord uc base hset hvalid hread hok]
  refine ⟨_, rfl, ?_, ?_, ?_⟩
  · simp only
    rw [textLines_written uc.Config base hval, List.count_append,
      List.count_eq_zero_of_not_mem hnot, hperm.count_eq, List.count_eq_one_of_mem hvals hin]
  · simp only
    rw [textLines_written uc.Config base hval, take_append_eq (rewriteLines_length _ _)]
    exact hnot
  · simp only
    rw [textLines_written uc.Config base hval, drop_append_eq (rewriteLines_length _ _)]
    exact hperm.mem_iff.2 hin

/-- Witness of C3: server and group set over a base file that has a GROUP line
and no SERVER line. -/
theorem file_appends_missing_key_witness :
    ∃ f : File,
      Update.File enumValid RangeOrder.listed
          { Config := { RebootStrategy := "", Group := "beta", Server := "http://u" }
            ReadConfig := .ok (bufio.Scanner.ofContent "# SERVER\nGROUP=alpha\n") }
        = { file := some f, err := none, readConfigCalls := 1 } ∧
      (textLines f.Content).count ("SERVER" ++ "=" ++ "http://u") = 1 ∧
      ("SERVER" ++ "=" ++ "http://u") ∉
        (textLines f.Content).take (bufio.ScanLines "# SERVER\nGROUP=alpha\n").length ∧
      ("SERVER" ++ "=" ++ "http://u") ∈
        (textLines f.Content).drop (bufio.ScanLines "# SERVER\nGROUP=alpha\n").length :=
  file_appends_missing_key enumValid RangeOrder.listed (fun _ _ => List.Perm.refl _)
    { Config := { RebootStrategy := "", Group := "beta", Server := "http://u" }
      ReadConfig := .ok (bufio.Scanner.ofContent "# SERVER\nGROUP=alpha\n") }
    "# SERVER\nGROUP=alpha\n" (by decide) (by decide) rfl (by decide) (by decide)
    "SERVER" "http://u" (by decide) (by decide) (by decide)

theorem remaining_length (c : config.Update) (lines : List String) :
    (rewriteLines (substitutions c.fields) lines).2.length
      = (c.fields.filter (fun g =>
          decide (g.2 ≠ "") && lines.all (fun l => !strings.HasPrefix l g.1))).length := by
  have hfs := fields_prefixFree c
  rw [rewriteLines_remaining lines _ (substitutions_prefixFree hfs),
    substitutions_eq _ (prefixFree_nodup hfs), substitutions_eq_map, List.filter_map,
    List.length_map, List.filter_filter]
  congr 1
  apply List.filter_congr
  intro g _
  simp [Bool.and_comm]

/-- C14, counterexample.  With group set to `a`, newline, `SERVER=evil`, the
base file `SERVER=x` has one line and one configured key that prefixes no base
line, so that n + u = 2, but the content `SERVER=x`, `GROUP=a`, `SERVER=evil`
has three lines. -/
theorem file_writes_more_lines_for_multiline_value :
    Update.File enumValid RangeOrder.listed
        { Config := { RebootStrategy := "", Group := "a\nSERVER=evil", Server := "" }
          ReadConfig := .ok (bufio.Scanner.ofContent "SERVER=x\n") }
      = { file := some
            { Path := "etc/coreos/update.conf"
              RawFilePermissions := "0644"
              Content := "SERVER=x\nGROUP=a\nSERVER=evil\n" }
          err := none
          readConfigCalls := 1 } ∧
    (bufio.ScanLines "SERVER=x\n").length = 1 ∧
    ((config.Update.fields
        { RebootStrategy := "", Group := "a\nSERVER=evil", Server := "" }).filter
      (fun g => decide (g.2 ≠ "") &&
        (bufio.ScanLines "SERVER=x\n").all (fun l => !strings.HasPrefix l g.1))).length = 1 ∧
    (textLines "SERVER=x\nGROUP=a\nSERVER=evil\n").length = 3 := by
  decide

/-- C14, amended.  For a non-empty, valid option set and a base file with
content `base`, read without error, the content is empty or ends with a
newline, also when the last base line had none; and when no configured value
contains a newline, the content is its `n + u` lines, each without newline and
followed by one newline, where `n` is the number of base lines (a last line
without newline counts) and `u` the number of configured keys that prefix no
base line. -/
theorem file_content_lines (AssertValid : config.Update → Option error)
    (ord : RangeOrder) (hord : ord.Valid) (uc : Update) (base : String)
    (hset : config.IsZero uc.Config = false) (hvalid : AssertValid uc.Config = none)
    (hread : uc.ReadConfig = .ok (bufio.Scanner.ofContent base))
    (hok : (bufio.Scanner.ofContent base).err = none) :
    ∃ f : File,
      uc.File AssertValid ord = { file := some f, err := none, readConfigCalls := 1 } ∧
      (f.Content = "" ∨ ∃ s, f.Content = s ++ "\n") ∧
      ((∀ g ∈ uc.Config.fields, '\n' ∉ g.2.data) →
        f.Content = joinLines (textLines f.Content) ∧
        (∀ l ∈ textLines f.Content, '\n' ∉ l.data) ∧
        (textLines f.Content).length = (bufio.ScanLines base).length +
          (uc.Config.fields.filter (fun g => decide (g.2 ≠ "") &&
            (bufio.ScanLines base).all (fun l => !strings.HasPrefix l g.1))).length) := by
  have hpf := substitutions_prefixFree (fields_prefixFree uc.Config)
  rw [file_ofContent AssertValid hord uc base hset hvalid hread hok]
  refine ⟨_, rfl, ?_, ?_⟩
  · simp only
    by_cases hne : (rewriteLines (substitutions uc.Config.fields) (bufio.ScanLines base)).1 ++
        (sort.Strings ((rewriteLines (substitutions uc.Config.fields)
          (bufio.ScanLines base)).2.map Prod.fst)).map
          (rewriteLines (substitutions uc.Config.fields) (bufio.ScanLines base)).2.get = []
    · left
      rw [hne]
      rfl
    · exact Or.inr (joinLines_ends _ hne)
  · intro hval
    simp only
    rw [textLines_written uc.Config base hval]
    refine ⟨rfl, written_newline_free uc.Config _ (scanLines_newline_free base) hval, ?_⟩
    rw [List.length_append, rewriteLines_length, (appended_perm hpf _).length_eq,
      List.length_map, remaining_length]

/-- Witness of C14: a base file whose last line has no newline. -/
theorem file_content_lines_witness :
    ∃ f : File,
      Update.File enumValid RangeOrder.listed
          { Config := { RebootStrategy := "", Group := "beta", Server := "http://u" }
            ReadConfig := .ok (bufio.Scanner.ofContent "GROUP=alpha\n# last") }
        = { file := some f, err := none, readConfigCalls := 1 } ∧
      (f.Content = "" ∨ ∃ s, f.Content = s ++ "\n") ∧
      ((∀ g ∈ config.Update.fields
            { RebootStrategy := "", Group := "beta", Server := "http://u" },
          '\n' ∉ g.2.data) →
        f.Content = joinLines (textLines f.Content) ∧
        (∀ l ∈ textLines f.Content, '\n' ∉ l.data) ∧
        (textLines f.Content).length = (bufio.ScanLines "GROUP=alpha\n# last").length +
          ((config.Update.fields
              { RebootStrategy := "", Group := "beta", Server := "http://u" }).filter
            (fun g => decide (g.2 ≠ "") &&
              (bufio.ScanLines "GROUP=alpha\n# last").all
                (fun l => !strings.HasPrefix l g.1))).length) :=
  file_content_lines enumValid RangeOrder.listed (fun _ _ => List.Perm.refl _)
    { Config := { RebootStrategy := "", Group := "beta", Server := "http://u" }
      ReadConfig := .ok (bufio.Scanner.ofContent "GROUP=alpha\n# last") }
    "GROUP=alpha\n# last" (by decide) (by decide) rfl (by decide)

theorem substitutions_dropCR {fs : List (String × String)}
    (hpf : PrefixFree (fs.map Prod.fst)) {e : String × String} (he : e ∈ substitutions fs) :
    strings.HasPrefix (bufio.dropCR e.2) e.1 = true := by
  obtain ⟨v, _, _, hr⟩ := (mem_substitutions hpf e).1 he
  rw [hasPrefix_iff]
  unfold bufio.dropCR
  split
  · rw [hr]
    simp only [String.data_append, List.append_assoc]
    have : ("=" : String).data ++ v.data = '=' :: v.data := rfl
    rw [this, List.dropLast_append_cons]
    exact List.prefix_append _ _
  · rw [hr]
    simp only [String.data_append, List.append_assoc]
    exact List.prefix_append _ _

theorem get_delete_ne (m : Subs) {k k₂ : String} (hne : k₂ ≠ k) :
    (m.delete k).get k₂ = m.get k₂ := by
  unfold Subs.get Subs.delete
  congr 1
  induction m with
  | nil => rfl
  | cons a m ih =>
    obtain ⟨ak, av⟩ := a
    by_cases hak : ak = k
    · have hbeq : (k₂ == ak) = false := by rw [hak]; simpa using hne
      simp only [List.filter_cons, hak, ne_eq, not_true_eq_false, decide_False,
        Bool.false_eq_true, if_false, List.lookup]
      rw [← hak] at ih ⊢
      simp only [hbeq]
      rw [hak] at ih ⊢
      exact ih
    · simp only [List.filter_cons, ne_eq, hak, not_false_eq_true, decide_True, if_true,
        List.lookup]
      cases (k₂ == ak) with
      | true => rfl
      | false => exact ih

theorem rewriteLines_append (a b : List String) :
    ∀ m : Subs, rewriteLines m (a ++ b)
      = ((rewriteLines m a).1 ++ (rewriteLines (rewriteLines m a).2 b).1,
          (rewriteLines (rewriteLines m a).2 b).2) := by
  induction a with
  | nil => intro m; rfl
  | cons l a ih =>
    intro m
    rw [List.cons_append, rewriteLines_cons, rewriteLines_cons, ih]
    rfl

/-- Scanning the written lines again, each without one terminal carriage
return, writes the same lines and leaves the same substitutions. -/
theorem rescan_written (lines : List String) :
    ∀ m : Subs, PrefixFree (m.map Prod.fst) →
      (∀ e ∈ m, strings.HasPrefix (bufio.dropCR e.2) e.1 = true) →
      (∀ l ∈ lines, bufio.dropCR l = l) →
      rewriteLines m ((rewriteLines m lines).1.map bufio.dropCR) = rewriteLines m lines := by
  induction lines with
  | nil => intro m _ _ _; rfl
  | cons l0 ls ih =>
    intro m hpf hdrop hcr
    have hl0 : bufio.dropCR l0 = l0 := hcr l0 (List.mem_cons_self _ _)
    have hls : ∀ l ∈ ls, bufio.dropCR l = l := fun l hl => hcr l (List.mem_cons_of_mem _ hl)
    have hpf2 := substitute_prefixFree hpf l0
    rw [rewriteLines_cons]
    simp only [List.map_cons]
    rw [rewriteLines_cons]
    rcases substitute_cases m hpf l0 with ⟨_, hs⟩ | ⟨e0, he0, _, hs⟩
    · rw [hs] at hpf2 ⊢
      simp only
      rw [hl0, hs]
      simp only
      rw [ih m hpf2 hdrop hls]
    · rw [hs] at hpf2 ⊢
      simp only
      rw [substitute_some hpf he0 (hdrop e0 he0)]
      simp only
      rw [ih _ hpf2 (fun e he => hdrop e (mem_delete.1 he).1) hls]

/-- Scanning the appended lines again consumes every substitution they render. -/
theorem rescan_appended (ks : List String) :
    ∀ m : Subs, ks.Nodup → (∀ k ∈ ks, k ∈ m.map Prod.fst) → PrefixFree (m.map Prod.fst) →
      (∀ e ∈ m, strings.HasPrefix (bufio.dropCR e.2) e.1 = true) →
      rewriteLines m ((ks.map m.get).map bufio.dropCR)
        = (ks.map m.get, m.filter (fun e => decide (e.1 ∉ ks))) := by
  induction ks with
  | nil => intro m _ _ _ _; simp [rewriteLines]
  | cons k ks ih =>
    intro m hnd hks hpf hdrop
    obtain ⟨hk, hnd2⟩ := List.nodup_cons.1 hnd
    obtain ⟨e, he, hek⟩ := List.mem_map.1 (hks k (List.mem_cons_self _ _))
    have hget : m.get k = e.2 := by rw [← hek]; exact get_of_mem (prefixFree_nodup hpf) he
    have hks2 : ∀ k₂ ∈ ks, k₂ ∈ (m.delete k).map Prod.fst := by
      intro k₂ hk₂
      obtain ⟨e₂, he₂, hek₂⟩ := List.mem_map.1 (hks k₂ (List.mem_cons_of_mem _ hk₂))
      refine List.mem_map.2 ⟨e₂, mem_delete.2 ⟨he₂, ?_⟩, hek₂⟩
      rw [hek₂]
      intro h
      rw [h] at hk₂
      exact hk hk₂
    have hmap : ks.map m.get = ks.map (m.delete k).get := by
      apply List.map_congr_left
      intro k₂ hk₂
      have hne : k₂ ≠ k := by
        intro h
        rw [h] at hk₂
        exact hk hk₂
      rw [get_delete_ne m hne]
    simp only [List.map_cons]
    rw [rewriteLines_cons, hget, substitute_some hpf he (hdrop e he)]
    simp only
    rw [hek, hmap, ih (m.delete k) hnd2 hks2 (prefixFree_delete hpf k)
      (fun e he => hdrop e (mem_delete.1 he).1)]
    simp only [Prod.mk.injEq, true_and]
    unfold Subs.delete
    rw [List.filter_filter]
    apply List.filter_congr
    intro x _
    simp [Bool.and_comm, eq_comm]

/-- Scanning all the lines written by `Update.File` again writes the same lines
and appends nothing. -/
theorem rescan_file (c : config.Update) (lines : List String)
    (hcr : ∀ l ∈ lines, bufio.dropCR l = l) :
    rewriteLines (substitutions c.fields)
        (((rewriteLines (substitutions c.fields) lines).1 ++
          (sort.Strings ((rewriteLines (substitutions c.fields) lines).2.map Prod.fst)).map
            (rewriteLines (substitutions c.fields) lines).2.get).map bufio.dropCR)
      = ((rewriteLines (substitutions c.fields) lines).1 ++
          (sort.Strings ((rewriteLines (substitutions c.fields) lines).2.map Prod.fst)).map
            (rewriteLines (substitutions c.fields) lines).2.get, []) := by
  have hfs := fields_prefixFree c
  have hpf := substitutions_prefixFree hfs
  have hdrop : ∀ e ∈ substitutions c.fields,
      strings.HasPrefix (bufio.dropCR e.2) e.1 = true := fun e he => substitutions_dropCR hfs he
  have hsub := remaining_sublist hpf lines
  have hpfR : PrefixFree ((rewriteLines (substitutions c.fields) lines).2.map Prod.fst) :=
    List.Pairwise.sublist (hsub.map Prod.fst) hpf
  have hnd : (sort.Strings ((rewriteLines (substitutions c.fields) lines).2.map
      Prod.fst)).Nodup :=
    (List.perm_insertionSort _ _).nodup_iff.2 (remaining_nodup hpf lines)
  rw [List.map_append, rewriteLines_append, rescan_written lines _ hpf hdrop hcr,
    rescan_appended _ _ hnd (fun k hk => mem_sortedStrings.1 hk) hpfR
      (fun e he => hdrop e (hsub.subset he))]
  simp only [Prod.mk.injEq, true_and]
  rw [List.filter_eq_nil_iff]
  intro e he
  have : e.1 ∈ sort.Strings ((rewriteLines (substitutions c.fields) lines).2.map Prod.fst) :=
    mem_sortedStrings.2 (List.mem_map_of_mem Prod.fst he)
  simpa using this

/-- `Update.File` run on the content it wrote returns that content again, when
the second scan is neither misled by newlines or terminal carriage returns nor
stopped by a line that does not fit. -/
theorem file_rescan (AssertValid : config.Update → Option error) {ord : RangeOrder}
    (hord : ord.Valid) (c : config.Update) (lines : List String)
    (hset : config.IsZero c = false) (hvalid : AssertValid c = none)
    (hval : ∀ g ∈ c.fields, '\n' ∉ g.2.data) (hnl : ∀ l ∈ lines, '\n' ∉ l.data)
    (hcr : ∀ l ∈ lines, bufio.dropCR l = l)
    (hfit : ∀ l ∈ lines, bufio.fits l = true)
    (hfitv : ∀ g ∈ c.fields, bufio.fits (g.1 ++ "=" ++ g.2) = true) :
    (bufio.Scanner.ofContent (joinLines
        ((rewriteLines (substitutions c.fields) lines).1 ++
          (sort.Strings ((rewriteLines (substitutions c.fields) lines).2.map Prod.fst)).map
            (rewriteLines (substitutions c.fields) lines).2.get))).err = none ∧
    Update.File AssertValid ord
        { Config := c
          ReadConfig := .ok (bufio.Scanner.ofContent (joinLines
            ((rewriteLines (substitutions c.fields) lines).1 ++
              (sort.Strings ((rewriteLines (substitutions c.fields) lines).2.map Prod.fst)).map
                (rewriteLines (substitutions c.fields) lines).2.get))) }
      = { file := some
            { Path := "etc/coreos/update.conf"
              RawFilePermissions := "0644"
              Content := joinLines ((rewriteLines (substitutions c.fields) lines).1 ++
                (sort.Strings ((rewriteLines (substitutions c.fields) lines).2.map
                  Prod.fst)).map (rewriteLines (substitutions c.fields) lines).2.get) }
          err := none
          readConfigCalls := 1 } := by
  have hnlw := written_newline_free c lines hnl hval
  have hscan := scanLines_joinLines _ hnlw
  have htext := textLines_joinLines _ hnlw
  have hfits : ∀ l ∈ textLines (joinLines
      ((rewriteLines (substitutions c.fields) lines).1 ++
        (sort.Strings ((rewriteLines (substitutions c.fields) lines).2.map Prod.fst)).map
          (rewriteLines (substitutions c.fields) lines).2.get)), bufio.fits l = true := by
    rw [htext]
    intro x hx
    rcases written_mem c lines x hx with h | ⟨e, he, hex⟩
    · exact hfit x h
    · obtain ⟨v, hv, _, hr⟩ := (mem_substitutions (fields_prefixFree c) e).1 he
      rw [← hex, hr]
      exact hfitv (e.1, v) hv
  refine ⟨(ofContent_err _).2 hfits, ?_⟩
  rw [file_ofLines AssertValid hord
    { Config := c
      ReadConfig := .ok (bufio.Scanner.ofContent (joinLines
        ((rewriteLines (substitutions c.fields) lines).1 ++
          (sort.Strings ((rewriteLines (substitutions c.fields) lines).2.map Prod.fst)).map
            (rewriteLines (substitutions c.fields) lines).2.get))) }
    (((rewriteLines (substitutions c.fields) lines).1 ++
      (sort.Strings ((rewriteLines (substitutions c.fields) lines).2.map Prod.fst)).map
        (rewriteLines (substitutions c.fields) lines).2.get).map bufio.dropCR)
    hset hvalid (by simp only [ofContent_of_fits _ hfits, hscan])]
  simp only
  rw [rescan_file c lines hcr]
  simp [sort.Strings]

/-- C18, counterexample.  The base file `keep\r\r` (one line that ends in two
carriage returns) with group `stable` gives the content `keep\r`,
`GROUP=stable`; run on that content, `Update.File` gives `keep`,
`GROUP=stable`, which is a different content, because the scanner takes one
terminal carriage return off every line. -/
theorem file_reapplied_drops_carriage_return :
    Update.File enumValid RangeOrder.listed
        { Config := { RebootStrategy := "", Group := "stable", Server := "" }
          ReadConfig := .ok (bufio.Scanner.ofContent "keep\r\r\n") }
      = { file := some
            { Path := "etc/coreos/update.conf"
              RawFilePermissions := "0644"
              Content := "keep\r\nGROUP=stable\n" }
          err := none
          readConfigCalls := 1 } ∧
    Update.File enumValid RangeOrder.listed
        { Config := { RebootStrategy := "", Group := "stable", Server := "" }
          ReadConfig := .ok (bufio.Scanner.ofContent "keep\r\nGROUP=stable\n") }
      = { file := some
            { Path := "etc/coreos/update.conf"
              RawFilePermissions := "0644"
              Content := "keep\nGROUP=stable\n" }
          err := none
          readConfigCalls := 1 } := by
  decide

/-- C18 (re-application is a fixed point), amended.  Take a non-empty, valid
option set whose values contain no newline and whose rendered lines `K=v` are
shorter than `MaxScanTokenSize` bytes, and a base file that is read without
error and none of whose scanned lines ends in a carriage return.  Then the
content of the artifact that `Update.File` returns is itself scanned without
error, and `Update.File` run with the same options on that content returns the
same artifact again, whatever the visiting orders of the map in the two runs. -/
theorem file_reapplied_is_fixed (AssertValid : config.Update → Option error)
    (ord₁ ord₂ : RangeOrder) (h₁ : ord₁.Valid) (h₂ : ord₂.Valid) (uc : Update) (base : String)
    (hset : config.IsZero uc.Config = false) (hvalid : AssertValid uc.Config = none)
    (hread : uc.ReadConfig = .ok (bufio.Scanner.ofContent base))
    (hok : (bufio.Scanner.ofContent base).err = none)
    (hval : ∀ g ∈ uc.Config.fields, '\n' ∉ g.2.data)
    (hshort : ∀ g ∈ uc.Config.fields, bufio.fits (g.1 ++ "=" ++ g.2) = true)
    (hcr : ∀ l ∈ bufio.ScanLines base, bufio.dropCR l = l) :
    ∃ f : File,
      uc.File AssertValid ord₁ = { file := some f, err := none, readConfigCalls := 1 } ∧
      (bufio.Scanner.ofContent f.Content).err = none ∧
      Update.File AssertValid ord₂
          { Config := uc.Config, ReadConfig := .ok (bufio.Scanner.ofContent f.Content) }
        = { file := some f, err := none, readConfigCalls := 1 } := by
  have hre := file_rescan AssertValid h₂ uc.Config (bufio.ScanLines base) hset hvalid hval
    (scanLines_newline_free base) hcr (scanLines_fit base ((ofContent_err base).1 hok)) hshort
  exact ⟨_, file_ofContent AssertValid h₁ uc base hset hvalid hread hok, hre.1, hre.2⟩

/-- Witness of C18: group and server set over a base file with carriage
returns before the newlines and no newline after the last line. -/
theorem file_reapplied_is_fixed_witness :
    ∃ f : File,
      Update.File enumValid RangeOrder.listed
          { Config := { RebootStrategy := "", Group := "beta", Server := "http://u" }
            ReadConfig := .ok (bufio.Scanner.ofContent "# c\r\nGROUP=alpha\r\nGROUP=x") }
        = { file := some f, err := none, readConfigCalls := 1 } ∧
      (bufio.Scanner.ofContent f.Content).err = none ∧
      Update.File enumValid RangeOrder.reversed
          { Config := { RebootStrategy := "", Group := "beta", Server := "http://u" }
            ReadConfig := .ok (bufio.Scanner.ofContent f.Content) }
        = { file := some f, err := none, readConfigCalls := 1 } :=
  file_reapplied_is_fixed enumValid RangeOrder.listed RangeOrder.reversed
    (fun _ _ => List.Perm.refl _) (fun _ m => List.reverse_perm m)
    { Config := { RebootStrategy := "", Group := "beta", Server := "http://u" }
      ReadConfig := .ok (bufio.Scanner.ofContent "# c\r\nGROUP=alpha\r\nGROUP=x") }
    "# c\r\nGROUP=alpha\r\nGROUP=x" (by decide) (by decide) rfl (by decide) (by decide)
    (by decide) (by decide)

/-- C20.  `Update.Units` returns the empty list exactly when all three fields
are empty, which is exactly when the guard `config.IsZero` of `Update.File`
holds, exactly when `Update.File` returns no artifact and no error, and exactly
when it does so without calling `ReadConfig`; so whenever `Update.File` returns
an artifact, `Update.Units` returns at least one action. -/
theorem units_empty_iff_file_noop (AssertValid : config.Update → Option error)
    (ord : RangeOrder) (uc : Update) :
    (uc.Units.1 = [] ↔
      uc.Config.RebootStrategy = "" ∧ uc.Config.Group = "" ∧ uc.Config.Server = "") ∧
    (uc.Units.1 = [] ↔ config.IsZero uc.Config = true) ∧
    (uc.Units.1 = [] ↔
      uc.File AssertValid ord = { file := none, err := none, readConfigCalls := 0 }) ∧
    (uc.Units.1 = [] ↔
      ((uc.File AssertValid ord).file = none ∧ (uc.File AssertValid ord).err = none)) ∧
    ((uc.File AssertValid ord).file ≠ none → uc.Units.1 ≠ []) := by
  have h1 : uc.Units.1 = [] ↔
      uc.Config.RebootStrategy = "" ∧ uc.Config.Group = "" ∧ uc.Config.Server = "" := by
    unfold Update.Units
    by_cases hrs : uc.Config.RebootStrategy = "" <;>
      by_cases hg : uc.Config.Group = "" <;>
        by_cases hs : uc.Config.Server = "" <;> simp [hrs, hg, hs]
  have h2 : config.IsZero uc.Config = true ↔
      uc.Config.RebootStrategy = "" ∧ uc.Config.Group = "" ∧ uc.Config.Server = "" := by
    unfold config.IsZero
    simp [and_assoc]
  have h3 : config.IsZero uc.Config = true →
      uc.File AssertValid ord = { file := none, err := none, readConfigCalls := 0 } := by
    intro h
    unfold Update.File
    rw [if_pos h]
  have h4 : (uc.File AssertValid ord).file = none ∧ (uc.File AssertValid ord).err = none →
      config.IsZero uc.Config = true := by
    intro h
    by_contra hz
    unfold Update.File at h
    rw [if_neg hz] at h
    split at h
    · simp at h
    · split at h
      · simp at h
      · split at h
        · simp at h
        · simp at h
  have h5 : uc.Units.1 = [] ↔ config.IsZero uc.Config = true := h1.trans h2.symm
  refine ⟨h1, h5, ?_, ?_, ?_⟩
  · constructor
    · intro h
      exact h3 (h5.1 h)
    · intro h
      exact h5.2 (h4 (by rw [h]; exact ⟨rfl, rfl⟩))
  · constructor
    · intro h
      rw [h3 (h5.1 h)]
      exact ⟨rfl, rfl⟩
    · intro h
      exact h5.2 (h4 h)
  · intro hfile hunits
    rw [h3 (h5.1 hunits)] at hfile
    exact hfile rfl

/-- Witness of C20: with only a server set, `Update.File` returns an artifact
and `Update.Units` is not empty. -/
theorem units_empty_iff_file_noop_witness :
    (Update.Units
      { Config := { RebootStrategy := "", Group := "", Server := "http://u" }
        ReadConfig := .ok (bufio.Scanner.ofLines ["SERVER=x"]) }).1 ≠ [] :=
  (units_empty_iff_file_noop enumValid RangeOrder.listed
    { Config := { RebootStrategy := "", Group := "", Server := "http://u" }
      ReadConfig := .ok (bufio.Scanner.ofLines ["SERVER=x"]) }).2.2.2.2 (by decide)

end CloudInit
